import Mathlib

/-!
Shallow embedding of `gen-board.h.py` (board-header generator): the MCU
profile resolver, the per-pin attribute parser, the pin-table builder and
the header emitter, together with theorems settling the specification
claims about them.

Strings are modelled as `List Char` (`Str`); Python `sys.exit(1)` error
paths and uncaught exceptions (`IndexError`, `ValueError`, `TypeError`,
`KeyError`) are modelled with the `Except PErr` monad.
-/

namespace GenBoard

/-- Python strings, modelled as lists of characters. -/
abbrev Str := List Char

/-- Error outcomes of the generator.  The first six correspond to the
`print(...); sys.exit(1)` validation paths of the source; the last four
model uncaught Python exceptions (which also terminate the run). -/
inductive PErr where
  | noMatchingProfile
  | unknownKeyword (elm : Str)
  | conflictingMode
  | incompleteDefault
  | defaultHasPosition
  | indexError
  | valueError
  | typeError
  | keyError
deriving DecidableEq, Repr

/-- `MCU._match_names(self, test, x)`: position-wise score of request
`test` against catalog pattern `x`.  Note: the wildcard branch of the
source compares the whole pattern `x` against the one-character string
`"x"` (`elif x == "x":`), not the current pattern character `xc`. -/
def matchNames (test x : Str) : Int :=
  (test.zip x).foldl
    (fun score tx =>
      if tx.1 = tx.2 then score + 1
      else if x = ['x'] then score
      else score - 1)
    0

/-- Modelled from the spec: the scoring algorithm as §4.1 words it — a
pattern character equal to the wildcard placeholder `x` contributes 0.
This is the comparison target for claim C1 only; `matchNames` above is
the translation of the source. -/
def matchNamesSpec (test x : Str) : Int :=
  (test.zip x).foldl
    (fun score tx =>
      if tx.1 = tx.2 then score + 1
      else if tx.2 = 'x' then score
      else score - 1)
    0

/-- Insert `a` into `l`, placing it after every element `b` with
`le b a`.  Folding this over a list from the left is a stable sort with
respect to `le`, which is how Python's stable `sorted` is modelled. -/
def insStable (le : α → α → Bool) (a : α) : List α → List α
  | [] => [a]
  | b :: bs => if le b a then b :: insStable le a bs else a :: b :: bs

/-- Python's stable `sorted(xs, ...)` for a boolean comparison `le`:
elements comparing equal keep their input order. -/
def pySorted (le : α → α → Bool) (xs : List α) : List α :=
  xs.foldl (fun acc a => insStable le a acc) []

/-- The comparison used by `sorted(types, key=lambda x: self._match_names(mcutype, x), reverse=True)`:
descending by score, stable (Python's `reverse=True` keeps the input
order of equal keys). -/
def scoreDescLe (mcutype : Str) (a b : Str) : Bool :=
  decide (matchNames mcutype b ≤ matchNames mcutype a)

/-- `MCU._choose_mcu_file`: rank the catalog patterns by score
(descending, stable), take the first, and fail with `NoMatchingProfile`
when its score is not positive.  `rank_types[0]` on an empty catalog is
a Python `IndexError`.  (The source then appends `".yaml"` and the
catalog directory to the winning pattern; that filename formatting is
I/O glue and the chosen pattern itself is returned here.) -/
def chooseMcuFile (types : List Str) (mcutype : Str) : Except PErr Str :=
  match (pySorted (scoreDescLe mcutype) types).head? with
  | none => .error .indexError
  | some choice =>
      if matchNames mcutype choice ≤ 0 then .error .noMatchingProfile
      else .ok choice

/-- The running "current best" of the descending stable sort's left
fold, with first-wins tie-break: a later element replaces the best only
when its score is strictly greater. -/
def pickBest (mcutype : Str) (b : Str) : List Str → Str
  | [] => b
  | a :: as => pickBest mcutype (if scoreDescLe mcutype b a then b else a) as

theorem insStable_head? (le : α → α → Bool) (a : α) (l : List α) :
    (insStable le a l).head? =
      some (match l.head? with
            | none => a
            | some b => if le b a then b else a) := by
  cases l with
  | nil => rfl
  | cons b bs =>
      simp only [insStable, List.head?]
      by_cases h : le b a = true
      · simp [h]
      · simp [h]

/-- One step of tracking the head of the stable insertion fold. -/
def bestStep (le : α → α → Bool) (b : Option α) (a : α) : Option α :=
  some (match b with
        | none => a
        | some c => if le c a then c else a)

theorem pySorted_foldl_head? (le : α → α → Bool) :
    ∀ (xs : List α) (acc : List α),
      (xs.foldl (fun acc a => insStable le a acc) acc).head? =
        xs.foldl (bestStep le) acc.head? := by
  intro xs
  induction xs with
  | nil => intro acc; rfl
  | cons x xs ih =>
      intro acc
      simp only [List.foldl_cons]
      rw [ih, insStable_head?]
      rfl

theorem optFold_eq_pickBest (mcutype : Str) :
    ∀ (xs : List Str) (x : Str),
      List.foldl (bestStep (scoreDescLe mcutype)) (some x) xs =
        some (pickBest mcutype x xs) := by
  intro xs
  induction xs with
  | nil => intro x; rfl
  | cons a as ih =>
      intro x
      rw [List.foldl_cons]
      have hstep : bestStep (scoreDescLe mcutype) (some x) a =
          some (if scoreDescLe mcutype x a then x else a) := rfl
      rw [hstep]
      exact ih (if scoreDescLe mcutype x a then x else a)

theorem pySorted_head?_eq_pickBest (mcutype : Str) (x : Str) (xs : List Str) :
    (pySorted (scoreDescLe mcutype) (x :: xs)).head? =
      some (pickBest mcutype x xs) := by
  unfold pySorted
  rw [pySorted_foldl_head? (scoreDescLe mcutype) (x :: xs) []]
  have h0 : (([] : List Str).head?) = none := rfl
  rw [h0, List.foldl_cons]
  have h1 : bestStep (scoreDescLe mcutype) none x = some x := rfl
  rw [h1]
  exact optFold_eq_pickBest mcutype xs x

theorem pickBest_spec (mcutype : Str) :
    ∀ (xs : List Str) (b : Str),
      (pickBest mcutype b xs = b ∧
        ∀ y ∈ xs, matchNames mcutype y ≤ matchNames mcutype b) ∨
      (∃ l₁ m l₂, xs = l₁ ++ m :: l₂ ∧ pickBest mcutype b xs = m ∧
        matchNames mcutype b < matchNames mcutype m ∧
        (∀ y ∈ l₁, matchNames mcutype y < matchNames mcutype m) ∧
        ∀ y ∈ xs, matchNames mcutype y ≤ matchNames mcutype m) := by
  intro xs
  induction xs with
  | nil => intro b; left; exact ⟨rfl, by simp⟩
  | cons a as ih =>
      intro b
      simp only [pickBest]
      by_cases h : matchNames mcutype a ≤ matchNames mcutype b
      · have hle : scoreDescLe mcutype b a = true := by
          simp [scoreDescLe, h]
        rw [hle]
        simp only [if_true]
        rcases ih b with ⟨he, hall⟩ | ⟨l₁, m, l₂, hsplit, hpick, hlt, hbefore, hall⟩
        · left
          refine ⟨he, ?_⟩
          intro y hy
          rcases List.mem_cons.mp hy with rfl | hy
          · exact h
          · exact hall y hy
        · right
          refine ⟨a :: l₁, m, l₂, by rw [hsplit]; rfl, hpick, hlt, ?_, ?_⟩
          · intro y hy
            rcases List.mem_cons.mp hy with rfl | hy
            · exact lt_of_le_of_lt h hlt
            · exact hbefore y hy
          · intro y hy
            rcases List.mem_cons.mp hy with rfl | hy
            · exact le_of_lt (lt_of_le_of_lt h hlt)
            · exact hall y hy
      · have hle : scoreDescLe mcutype b a = false := by
          simp [scoreDescLe, h]
        rw [hle]
        simp only [Bool.false_eq_true, if_false]
        push_neg at h
        rcases ih a with ⟨he, hall⟩ | ⟨l₁, m, l₂, hsplit, hpick, hlt, hbefore, hall⟩
        · right
          refine ⟨[], a, as, rfl, he, h, ?_, ?_⟩
          · intro y hy
            simp at hy
          · intro y hy
            rcases List.mem_cons.mp hy with rfl | hy
            · exact le_refl _
            · exact hall y hy
        · right
          refine ⟨a :: l₁, m, l₂, by rw [hsplit]; rfl, hpick, lt_trans h hlt, ?_, ?_⟩
          · intro y hy
            rcases List.mem_cons.mp hy with rfl | hy
            · exact hlt
            · exact hbefore y hy
          · intro y hy
            rcases List.mem_cons.mp hy with rfl | hy
            · exact le_of_lt hlt
            · exact hall y hy

/-- C1: the claim reads the scoring as "a pattern character equal to the
wildcard placeholder `x` contributes 0", but the source's wildcard check
(`elif x == "x":`) compares the *whole pattern string* to `"x"`, so a
pattern character `x` at a mismatching position contributes −1 like any
other mismatch: request `STM32F405` against pattern `STM32F4x5` scores
7 in the code (8 matches, one −1 mismatch at the `x` position) where the
claimed semantics gives 8. -/
theorem c1_wildcard_scoring_divergence :
    matchNames ("STM32F405".toList) ("STM32F4x5".toList) = 7 ∧
    matchNamesSpec ("STM32F405".toList) ("STM32F4x5".toList) = 8 := by
  constructor <;> decide

/-- C2: for every nonempty profile catalog and request string the
resolver's choice decomposes the catalog as `l₁ ++ choice :: l₂` where
`choice` scores at least as high as every pattern and strictly higher
than every earlier pattern (highest score, ties broken in favour of the
first pattern in catalog order), and the resolver fails with
`NoMatchingProfile` exactly when that best score is ≤ 0, returning
`choice` otherwise. -/
theorem c2_resolver_best_match (types : List Str) (req : Str)
    (hne : types ≠ []) :
    ∃ l₁ choice l₂, types = l₁ ++ choice :: l₂ ∧
      (∀ t ∈ types, matchNames req t ≤ matchNames req choice) ∧
      (∀ t ∈ l₁, matchNames req t < matchNames req choice) ∧
      ((matchNames req choice ≤ 0 ∧
          chooseMcuFile types req = .error .noMatchingProfile) ∨
        (0 < matchNames req choice ∧
          chooseMcuFile types req = .ok choice)) := by
  obtain ⟨x, xs, rfl⟩ : ∃ x xs, types = x :: xs := by
    cases types with
    | nil => exact absurd rfl hne
    | cons x xs => exact ⟨x, xs, rfl⟩
  have hhead := pySorted_head?_eq_pickBest req x xs
  have hchoose : chooseMcuFile (x :: xs) req =
      (if matchNames req (pickBest req x xs) ≤ 0 then
        .error .noMatchingProfile
      else .ok (pickBest req x xs)) := by
    unfold chooseMcuFile
    rw [hhead]
  rcases pickBest_spec req xs x with
    ⟨he, hall⟩ | ⟨l₁, m, l₂, hsplit, hpick, hlt, hbefore, hall⟩
  · refine ⟨[], x, xs, rfl, ?_, by simp, ?_⟩
    · intro t ht
      rcases List.mem_cons.mp ht with rfl | ht
      · exact le_refl _
      · exact hall t ht
    · rw [he] at hchoose
      by_cases h0 : matchNames req x ≤ 0
      · left; exact ⟨h0, by rw [hchoose, if_pos h0]⟩
      · right; exact ⟨lt_of_not_le h0, by rw [hchoose, if_neg h0]⟩
  · refine ⟨x :: l₁, m, l₂, by rw [hsplit]; rfl, ?_, ?_, ?_⟩
    · intro t ht
      rcases List.mem_cons.mp ht with rfl | ht
      · exact le_of_lt hlt
      · exact hall t ht
    · intro t ht
      rcases List.mem_cons.mp ht with rfl | ht
      · exact hlt
      · exact hbefore t ht
    · rw [hpick] at hchoose
      by_cases h0 : matchNames req m ≤ 0
      · left; exact ⟨h0, by rw [hchoose, if_pos h0]⟩
      · right; exact ⟨lt_of_not_le h0, by rw [hchoose, if_neg h0]⟩

/-- Witness for C2 at a concrete catalog: with request `stm32f405` and
catalog `[stm32f042, stm32f405, stm32f407]`, the decomposition exists
and the resolver picks a pattern. -/
theorem c2_resolver_best_match_witness :
    ∃ l₁ choice l₂,
      ["stm32f042".toList, "stm32f405".toList, "stm32f407".toList] =
        l₁ ++ choice :: l₂ ∧
      (∀ t ∈ ["stm32f042".toList, "stm32f405".toList, "stm32f407".toList],
        matchNames ("stm32f405".toList) t ≤ matchNames ("stm32f405".toList) choice) ∧
      (∀ t ∈ l₁, matchNames ("stm32f405".toList) t < matchNames ("stm32f405".toList) choice) ∧
      ((matchNames ("stm32f405".toList) choice ≤ 0 ∧
          chooseMcuFile ["stm32f042".toList, "stm32f405".toList, "stm32f407".toList]
            "stm32f405".toList = .error .noMatchingProfile) ∨
        (0 < matchNames ("stm32f405".toList) choice ∧
          chooseMcuFile ["stm32f042".toList, "stm32f405".toList, "stm32f407".toList]
            "stm32f405".toList = .ok choice)) :=
  c2_resolver_best_match
    ["stm32f042".toList, "stm32f405".toList, "stm32f407".toList]
    "stm32f405".toList (by decide)

/-- The resolved MCU capability profile: `mcu_def['ports']` (list of
port letters) and `mcu_def['pins_per_port']`. -/
structure Mcu where
  ports : List Char
  pinsPerPort : Nat
deriving DecidableEq, Repr

/-- Python `int(s)`: optional surrounding whitespace, optional sign,
then a nonempty digit string; anything else raises `ValueError`
(modelled as `none`). -/
def pyDigits : List Char → Option Nat
  | [] => none
  | [c] => if c.isDigit then some (c.toNat - '0'.toNat) else none
  | c :: cs =>
      if c.isDigit then
        (pyDigits cs).map (fun n => (c.toNat - '0'.toNat) * 10 ^ cs.length + n)
      else none

/-- Strip leading and trailing whitespace (Python `str.strip()`). -/
def pyStrip (s : Str) : Str :=
  ((s.dropWhile Char.isWhitespace).reverse.dropWhile Char.isWhitespace).reverse

/-- Python `int(s)`. -/
def pyInt (s : Str) : Option Int :=
  match pyStrip s with
  | '-' :: ds => (pyDigits ds).map (fun n => -(n : Int))
  | '+' :: ds => (pyDigits ds).map (fun n => (n : Int))
  | ds => (pyDigits ds).map (fun n => (n : Int))

/-- Python `str.upper()` (ASCII, which is all the generator feeds it). -/
def pyUpper (s : Str) : Str := s.map Char.toUpper

/-- Python `str.lower()` (ASCII). -/
def pyLower (s : Str) : Str := s.map Char.toLower

/-- Python `s.split(",")`: always nonempty, `"".split(",") == [""]`. -/
def splitComma : Str → List Str
  | [] => [[]]
  | a :: as =>
      match splitComma as with
      | [] => [[a]]
      | t :: ts => if a = ',' then [] :: t :: ts else (a :: t) :: ts

/-- `elm.strip().upper()` applied to each comma-separated element. -/
def normTokens (s : Str) : List Str :=
  (splitComma s).map (fun t => pyUpper (pyStrip t))

/-- The parsed-attribute dictionary `pin` accumulated by
`Pins._parse_data_str`; a `none` field is an absent key. -/
structure PinDict where
  port : Option Char := none
  num : Option Int := none
  mode : Option Str := none
  od : Option Str := none
  otype : Option Str := none
  ospeed : Option Str := none
  pupd : Option Str := none
  af : Option Int := none
deriving DecidableEq, Repr

/-- The final per-position record, `Pins._Pin` (a namedtuple: every
field must be supplied at construction). -/
structure Pin where
  name : Str
  port : Char
  num : Int
  mode : Str
  od : Str
  otype : Str
  ospeed : Str
  pupd : Str
  af : Int
  raw : Str
deriving DecidableEq, Repr

def modeKws : List Str := [['I','N','P','U','T'], ['O','U','T','P','U','T'], ['A','N','A','L','O','G']]

def odKws : List Str := [['S','T','A','R','T','L','O','W'], ['S','T','A','R','T','H','I','G','H']]

def otypeKws : List Str := [['P','U','S','H','P','U','L','L'], ['O','P','E','N','D','R','A','I','N']]

def ospeedKws : List Str :=
  [['V','E','R','Y','L','O','W','S','P','E','E','D'], ['L','O','W','S','P','E','E','D'],
   ['M','E','D','I','U','M','S','P','E','E','D'], ['H','I','G','H','S','P','E','E','D']]

def pupdKws : List Str := [['F','L','O','A','T','I','N','G'], ['P','U','L','L','U','P'], ['P','U','L','L','D','O','W','N']]

/-- The `elif` chain of `Pins._parse_data_str` for a token that is not a
(successful) position token: mode, initial level, output type, speed,
pull, `AF<n>`, else the catch-all `"Invalid pin keyword"` error. -/
def classifyToken (pin : PinDict) (raw : List Str) (elm : Str) :
    Except PErr (PinDict × List Str) :=
  if elm ∈ modeKws then
    if pin.mode.isSome then .error .conflictingMode
    else .ok ({ pin with mode := some elm, af := some 0 }, raw ++ [elm])
  else if elm ∈ odKws then
    .ok ({ pin with od := some (elm.drop 5) }, raw ++ [elm])
  else if elm ∈ otypeKws then
    .ok ({ pin with otype := some elm }, raw ++ [elm])
  else if elm ∈ ospeedKws then
    .ok ({ pin with ospeed := some (elm.take (elm.length - 5)) }, raw ++ [elm])
  else if elm ∈ pupdKws then
    .ok ({ pin with pupd := some elm }, raw ++ [elm])
  else if elm.take 2 = ['A','F'] then
    if pin.mode.isSome then .error .conflictingMode
    else
      match pyInt (elm.drop 2) with
      | none => .error .valueError
      | some v =>
          .ok ({ pin with mode := some ['A','L','T','E','R','N','A','T','E'], af := some v },
            raw ++ [elm])
  else .error (.unknownKeyword elm)

/-- One iteration of the token loop of `Pins._parse_data_str`: the
position-token test `elm[0] == "P" and elm[1] in self.mcu.ports and
int(elm[2:]) < self.mcu.pins_per_port` with Python's short-circuit and
exception behaviour (`elm[0]`/`elm[1]` out of range → `IndexError`,
failing `int(...)` → `ValueError`), falling through to the keyword
chain when the test is false. -/
def processToken (mcu : Mcu) (pin : PinDict) (raw : List Str) (elm : Str) :
    Except PErr (PinDict × List Str) :=
  match elm with
  | [] => .error .indexError
  | c0 :: rest =>
      if c0 = 'P' then
        match rest with
        | [] => .error .indexError
        | c1 :: rest2 =>
            if c1 ∈ mcu.ports then
              match pyInt rest2 with
              | none => .error .valueError
              | some n =>
                  if n < (mcu.pinsPerPort : Int) then
                    .ok ({ pin with port := some c1, num := some n }, raw)
                  else classifyToken pin raw elm
            else classifyToken pin raw elm
      else classifyToken pin raw elm

/-- The whole token loop. -/
def parseGo (mcu : Mcu) (pin : PinDict) (raw : List Str) :
    List Str → Except PErr (PinDict × List Str)
  | [] => .ok (pin, raw)
  | elm :: elms => do
      let (pin', raw') ← processToken mcu pin raw elm
      parseGo mcu pin' raw' elms

/-- `Pins._default_check_data`: the default attribute string must have
set mode, initial level, output type, speed and pull, and must not
carry a position. -/
def defaultCheckData (pin : PinDict) : Except PErr Unit :=
  if pin.mode = none then .error .incompleteDefault
  else if pin.od = none then .error .incompleteDefault
  else if pin.otype = none then .error .incompleteDefault
  else if pin.ospeed = none then .error .incompleteDefault
  else if pin.pupd = none then .error .incompleteDefault
  else if pin.port.isSome then .error .defaultHasPosition
  else .ok ()

/-- `Pins._parse_data_str(self, pin_data, default=False)`. -/
def parseDataStr (mcu : Mcu) (pinData : Str) (dflt : Bool) :
    Except PErr (PinDict × List Str) := do
  let (pin, raw) ← parseGo mcu {} [] (normTokens pinData)
  if dflt then
    defaultCheckData pin
  else
    pure ()
  .ok (pin, raw)

/-- `pin.update(data)` over a base dictionary: a key present in `data`
overrides the base, an absent key keeps the base value. -/
def dictMerge (base upd : PinDict) : PinDict where
  port := upd.port.or base.port
  num := upd.num.or base.num
  mode := upd.mode.or base.mode
  od := upd.od.or base.od
  otype := upd.otype.or base.otype
  ospeed := upd.ospeed.or base.ospeed
  pupd := upd.pupd.or base.pupd
  af := upd.af.or base.af

/-- `self._Pin(**pin)` for a named pin: the namedtuple constructor
requires every field; a missing key (only `port`/`num` can be missing
after merging a checked default) raises `TypeError`. -/
def mkPin (name : Str) (d : PinDict) (raw : Str) : Except PErr Pin :=
  match d.port with
  | none => .error .typeError
  | some port =>
      match d.num with
      | none => .error .typeError
      | some num =>
          match d.mode, d.od, d.otype, d.ospeed, d.pupd, d.af with
          | some mode, some od, some otype, some ospeed, some pupd, some af =>
              .ok ⟨name, port, num, mode, od, otype, ospeed, pupd, af, raw⟩
          | _, _, _, _, _, _ => .error .typeError

/-- `Pins._parse_pin_data(self, name, pin_data, default)`. -/
def parsePinData (mcu : Mcu) (name : Str) (pinData : Str) (dft : PinDict) :
    Except PErr Pin := do
  let (data, raw) ← parseDataStr mcu pinData false
  mkPin (pyUpper name) (dictMerge dft data) (pyLower (List.intercalate [',', ' '] raw))

/-- The synthesized name `"PIN{}".format(n)`. -/
def pinName (n : Nat) : Str := ['P','I','N'] ++ (toString n).toList

/-- The placeholder record
`self._Pin(name="PIN{}".format(n), port=port, num=n, raw="unused", **default)`:
`**default` must supply exactly the six attribute keys (a checked
default does), otherwise the namedtuple call raises `TypeError`. -/
def mkDefaultPin (d : PinDict) (port : Char) (n : Nat) : Except PErr Pin :=
  match d.mode, d.od, d.otype, d.ospeed, d.pupd, d.af, d.port, d.num with
  | some mode, some od, some otype, some ospeed, some pupd, some af, none, none =>
      .ok ⟨pinName n, port, (n : Int), mode, od, otype, ospeed, pupd, af,
        ['u','n','u','s','e','d']⟩
  | _, _, _, _, _, _, _, _ => .error .typeError

/-- Structural `List.mapM` in `Except`, mirroring a Python list
comprehension whose body may raise. -/
def mapE (f : α → Except PErr β) : List α → Except PErr (List β)
  | [] => .ok []
  | a :: as => do
      let b ← f a
      let bs ← mapE f as
      .ok (b :: bs)

/-- Structural fold in `Except`, mirroring a Python `for` loop whose
body may raise. -/
def foldE (f : σ → α → Except PErr σ) : σ → List α → Except PErr σ
  | st, [] => .ok st
  | st, a :: as => do
      let st' ← f st a
      foldE f st' as

/-- The pin table `self._pins`: port letter → list of `pins_per_port`
records, in the profile's port order. -/
abbrev Table := List (Char × List Pin)

/-- Python list index normalization: a negative index counts from the
end. -/
def pyNormIdx (len : Nat) (i : Int) : Int :=
  if i < 0 then i + (len : Int) else i

/-- Python `lst[i] = v`: negative indices wrap once; an index out of
range raises `IndexError` (modelled as `none`). -/
def pySetList (l : List α) (i : Int) (v : α) : Option (List α) :=
  if 0 ≤ pyNormIdx l.length i ∧ pyNormIdx l.length i < (l.length : Int) then
    some (l.set (pyNormIdx l.length i).toNat v)
  else none

/-- `self._pins[port][num] = pin`: dict access (first matching key,
`KeyError` when absent) followed by a Python list assignment. -/
def tableSet (tbl : Table) (p : Char) (i : Int) (pin : Pin) : Except PErr Table :=
  match tbl with
  | [] => .error .keyError
  | (q, row) :: rest =>
      if q = p then
        match pySetList row i pin with
        | some row' => .ok ((q, row') :: rest)
        | none => .error .indexError
      else do
        let rest' ← tableSet rest p i pin
        .ok ((q, row) :: rest')

/-- Dict lookup `self._pins[port]` (first matching key). -/
def tableFind (tbl : Table) (p : Char) : Option (List Pin) :=
  match tbl with
  | [] => none
  | (q, row) :: rest => if q = p then some row else tableFind rest p

/-- `self.pin_by_port(port, num)` at a nonnegative list position. -/
def tableGetNat (tbl : Table) (p : Char) (j : Nat) : Option Pin :=
  (tableFind tbl p).bind (fun row => row.get? j)

/-- `self._pins_by_name[name] = pin`: dict insert — an existing key is
overwritten in place, a new key is appended. -/
def byNameInsert (m : List (Str × Pin)) (k : Str) (v : Pin) : List (Str × Pin) :=
  match m with
  | [] => [(k, v)]
  | (k', v') :: rest =>
      if k' = k then (k', v) :: rest else (k', v') :: byNameInsert rest k v

/-- Dict lookup `self._pins_by_name[name]`. -/
def byNameGet (m : List (Str × Pin)) (k : Str) : Option Pin :=
  match m with
  | [] => none
  | (k', v') :: rest => if k' = k then some v' else byNameGet rest k

/-- The two tables built by `Pins.__init__`. -/
structure Pins where
  pins : Table
  pinsByName : List (Str × Pin)
deriving DecidableEq, Repr

/-- The seeded table: every `(port, n)` position holds a default-filled
placeholder named `PIN<n>`. -/
def makeInitialTable (mcu : Mcu) (d : PinDict) : Except PErr Table :=
  mapE
    (fun p => do
      let row ← mapE (fun n => mkDefaultPin d p n) (List.range mcu.pinsPerPort)
      .ok (p, row))
    mcu.ports

/-- One iteration of the named-pin loop of `Pins.__init__`. -/
def applyDecl (mcu : Mcu) (d : PinDict) (st : Pins) (decl : Str × Str) :
    Except PErr Pins := do
  let pin ← parsePinData mcu decl.1 decl.2 d
  let tbl ← tableSet st.pins pin.port pin.num pin
  .ok ⟨tbl, byNameInsert st.pinsByName pin.name pin⟩

/-- `Pins.__init__` given the resolved profile: parse and check the
default string, seed the table, then overlay each user-declared pin in
declaration order.  (The profile itself comes from the resolver,
`chooseMcuFile`, plus the catalog yaml — external input modelled by the
`mcu` argument.) -/
def buildPins (mcu : Mcu) (defaultStr : Str) (decls : List (Str × Str)) :
    Except PErr Pins := do
  let (d, _) ← parseDataStr mcu defaultStr true
  let tbl0 ← makeInitialTable mcu d
  foldE (applyDecl mcu d) ⟨tbl0, []⟩ decls

/-- Membership of a normalized token in one of the five non-position,
non-AF keyword families. -/
def inFamiliesB (elm : Str) : Bool :=
  decide (elm ∈ modeKws) || decide (elm ∈ odKws) || decide (elm ∈ otypeKws) ||
    decide (elm ∈ ospeedKws) || decide (elm ∈ pupdKws)

/-- A well-formed `AF<n>` token. -/
def isAfTokenB (elm : Str) : Bool :=
  decide (elm.take 2 = ['A','F']) && (pyInt (elm.drop 2)).isSome

/-- A token the per-token loop can process without crashing and without
the catch-all keyword error: a position-token attempt that at least
parses its index, or a keyword-family member, or a well-formed `AF<n>`
token.  Mirrors the branch structure of `processToken`. -/
def validTokenB (mcu : Mcu) (elm : Str) : Bool :=
  match elm with
  | [] => false
  | c0 :: rest =>
      if c0 = 'P' then
        match rest with
        | [] => false
        | c1 :: rest2 =>
            if c1 ∈ mcu.ports then
              match pyInt rest2 with
              | none => false
              | some n =>
                  decide (n < (mcu.pinsPerPort : Int)) || inFamiliesB elm || isAfTokenB elm
            else inFamiliesB elm || isAfTokenB elm
      else inFamiliesB elm || isAfTokenB elm

theorem take_two_af {t : Str} (h : t.take 2 = ['A','F']) : ∃ r, t = 'A' :: 'F' :: r := by
  cases t with
  | nil => simp [List.take] at h
  | cons a t' =>
      cases t' with
      | nil => simp [List.take] at h
      | cons b r =>
          simp [List.take] at h
          exact ⟨r, by rw [h.1, h.2]⟩

theorem processToken_modeKw (mcu : Mcu) (st : PinDict) (raw : List Str) (t : Str)
    (ht : t ∈ modeKws) :
    processToken mcu st raw t =
      if st.mode.isSome then .error .conflictingMode
      else .ok ({ st with mode := some t, af := some 0 }, raw ++ [t]) := by
  simp only [modeKws, List.mem_cons, List.not_mem_nil, or_false] at ht
  rcases ht with rfl | rfl | rfl <;> rfl

theorem classify_odKw (st : PinDict) (raw : List Str) (t : Str)
    (ht : t ∈ odKws) :
    classifyToken st raw t = .ok ({ st with od := some (t.drop 5) }, raw ++ [t]) := by
  simp only [odKws, List.mem_cons, List.not_mem_nil, or_false] at ht
  rcases ht with rfl | rfl <;> rfl

theorem classify_otypeKw (st : PinDict) (raw : List Str) (t : Str)
    (ht : t ∈ otypeKws) :
    classifyToken st raw t = .ok ({ st with otype := some t }, raw ++ [t]) := by
  simp only [otypeKws, List.mem_cons, List.not_mem_nil, or_false] at ht
  rcases ht with rfl | rfl <;> rfl

theorem classify_ospeedKw (st : PinDict) (raw : List Str) (t : Str)
    (ht : t ∈ ospeedKws) :
    classifyToken st raw t =
      .ok ({ st with ospeed := some (t.take (t.length - 5)) }, raw ++ [t]) := by
  simp only [ospeedKws, List.mem_cons, List.not_mem_nil, or_false] at ht
  rcases ht with rfl | rfl | rfl | rfl <;> rfl

theorem classify_pupdKw (st : PinDict) (raw : List Str) (t : Str)
    (ht : t ∈ pupdKws) :
    classifyToken st raw t = .ok ({ st with pupd := some t }, raw ++ [t]) := by
  simp only [pupdKws, List.mem_cons, List.not_mem_nil, or_false] at ht
  rcases ht with rfl | rfl | rfl <;> rfl

theorem classify_family_ok (st : PinDict) (raw : List Str) (t : Str)
    (hnm : t ∉ modeKws) (hfam : inFamiliesB t = true) :
    ∃ st' raw', classifyToken st raw t = .ok (st', raw') ∧ st'.mode = st.mode := by
  simp only [inFamiliesB, Bool.or_eq_true, decide_eq_true_eq] at hfam
  rcases hfam with ((((hm | hm) | hm) | hm) | hm)
  · exact absurd hm hnm
  · exact ⟨_, _, classify_odKw st raw t hm, rfl⟩
  · exact ⟨_, _, classify_otypeKw st raw t hm, rfl⟩
  · exact ⟨_, _, classify_ospeedKw st raw t hm, rfl⟩
  · exact ⟨_, _, classify_pupdKw st raw t hm, rfl⟩

theorem processToken_not_P (mcu : Mcu) (st : PinDict) (raw : List Str)
    (c0 : Char) (rest : Str) (hP : ¬(c0 = 'P')) :
    processToken mcu st raw (c0 :: rest) = classifyToken st raw (c0 :: rest) := by
  simp [processToken, hP]

theorem processToken_P_noport (mcu : Mcu) (st : PinDict) (raw : List Str)
    (c1 : Char) (r2 : Str) (hc : c1 ∉ mcu.ports) :
    processToken mcu st raw ('P' :: c1 :: r2) = classifyToken st raw ('P' :: c1 :: r2) := by
  simp [processToken, hc]

theorem processToken_P_outOfRange (mcu : Mcu) (st : PinDict) (raw : List Str)
    (c1 : Char) (r2 : Str) (n : Int) (hc : c1 ∈ mcu.ports) (hpy : pyInt r2 = some n)
    (hge : ¬(n < (mcu.pinsPerPort : Int))) :
    processToken mcu st raw ('P' :: c1 :: r2) = classifyToken st raw ('P' :: c1 :: r2) := by
  simp [processToken, hc, hpy, hge]

theorem processToken_afPrefix (mcu : Mcu) (st : PinDict) (raw : List Str) (r : Str) :
    processToken mcu st raw ('A' :: 'F' :: r) =
      if st.mode.isSome then .error .conflictingMode
      else
        match pyInt r with
        | none => .error .valueError
        | some v =>
            .ok ({ st with mode := some ['A','L','T','E','R','N','A','T','E'], af := some v },
              raw ++ [('A' :: 'F' :: r)]) := by
  show classifyToken st raw ('A' :: 'F' :: r) = _
  simp only [classifyToken, modeKws, odKws, otypeKws, ospeedKws, pupdKws]
  simp [List.take, List.drop]

theorem af_shape_not_mode {r : Str} : ('A' :: 'F' :: r) ∉ modeKws := by
  simp [modeKws]

theorem modeKw_take_two {t : Str} (ht : t ∈ modeKws) : t.take 2 ≠ ['A','F'] := by
  simp only [modeKws, List.mem_cons, List.not_mem_nil, or_false] at ht
  rcases ht with rfl | rfl | rfl <;> decide

theorem validTokenB_nil (mcu : Mcu) : validTokenB mcu [] = false := rfl

theorem validTokenB_P_single (mcu : Mcu) : validTokenB mcu ['P'] = false := rfl

theorem validTokenB_P_cons (mcu : Mcu) (c1 : Char) (r2 : Str) :
    validTokenB mcu ('P' :: c1 :: r2) =
      if c1 ∈ mcu.ports then
        match pyInt r2 with
        | none => false
        | some n =>
            decide (n < (mcu.pinsPerPort : Int)) || inFamiliesB ('P' :: c1 :: r2) ||
              isAfTokenB ('P' :: c1 :: r2)
      else inFamiliesB ('P' :: c1 :: r2) || isAfTokenB ('P' :: c1 :: r2) := rfl

theorem validTokenB_not_P (mcu : Mcu) (c0 : Char) (rest : Str) (hP : ¬(c0 = 'P')) :
    validTokenB mcu (c0 :: rest) =
      (inFamiliesB (c0 :: rest) || isAfTokenB (c0 :: rest)) := by
  show (if c0 = 'P' then _ else inFamiliesB (c0 :: rest) || isAfTokenB (c0 :: rest)) = _
  rw [if_neg hP]

theorem processToken_valid_other (mcu : Mcu) (st : PinDict) (raw : List Str) (t : Str)
    (hv : validTokenB mcu t = true) (hnm : t ∉ modeKws) (hnaf : t.take 2 ≠ ['A','F']) :
    ∃ st' raw', processToken mcu st raw t = .ok (st', raw') ∧ st'.mode = st.mode := by
  have hafF : isAfTokenB t = false := by
    simp only [isAfTokenB, Bool.and_eq_false_iff, decide_eq_false_iff_not]
    left
    exact hnaf
  cases t with
  | nil => rw [validTokenB_nil] at hv; exact absurd hv (by decide)
  | cons c0 rest =>
      by_cases hP : c0 = 'P'
      · subst hP
        cases rest with
        | nil => rw [validTokenB_P_single] at hv; exact absurd hv (by decide)
        | cons c1 r2 =>
            rw [validTokenB_P_cons] at hv
            by_cases hc : c1 ∈ mcu.ports
            · rw [if_pos hc] at hv
              cases hpy : pyInt r2 with
              | none =>
                  rw [hpy] at hv
                  exact Bool.noConfusion hv
              | some n =>
                  rw [hpy] at hv
                  have hv2 : (decide (n < (mcu.pinsPerPort : Int)) ||
                      inFamiliesB ('P' :: c1 :: r2) ||
                      isAfTokenB ('P' :: c1 :: r2)) = true := hv
                  rw [hafF, Bool.or_false, Bool.or_eq_true, decide_eq_true_eq] at hv2
                  by_cases hlt : n < (mcu.pinsPerPort : Int)
                  · refine ⟨{ st with port := some c1, num := some n }, raw, ?_, rfl⟩
                    simp [processToken, hc, hpy, hlt]
                  · rcases hv2 with hv | hv
                    · exact absurd hv hlt
                    · obtain ⟨st', raw', hcl, hmode⟩ := classify_family_ok st raw _ hnm hv
                      exact ⟨st', raw',
                        by rw [processToken_P_outOfRange mcu st raw c1 r2 n hc hpy hlt]; exact hcl,
                        hmode⟩
            · rw [if_neg hc, hafF, Bool.or_false] at hv
              obtain ⟨st', raw', hcl, hmode⟩ := classify_family_ok st raw _ hnm hv
              exact ⟨st', raw',
                by rw [processToken_P_noport mcu st raw c1 r2 hc]; exact hcl, hmode⟩
      · rw [validTokenB_not_P mcu c0 rest hP, hafF, Bool.or_false] at hv
        obtain ⟨st', raw', hcl, hmode⟩ := classify_family_ok st raw _ hnm hv
        exact ⟨st', raw',
          by rw [processToken_not_P mcu st raw c0 rest hP]; exact hcl, hmode⟩

theorem parseGo_conflict_of_modeSet (mcu : Mcu) :
    ∀ (toks : List Str) (st : PinDict) (raw : List Str),
      st.mode.isSome = true →
      (∀ t ∈ toks, validTokenB mcu t = true) →
      (∃ t ∈ toks, t ∈ modeKws ∨ t.take 2 = ['A','F']) →
      parseGo mcu st raw toks = .error .conflictingMode := by
  intro toks
  induction toks with
  | nil =>
      intro st raw _ _ hex
      simp at hex
  | cons t ts ih =>
      intro st raw hmode hvalid hex
      by_cases hcase : t ∈ modeKws ∨ t.take 2 = ['A','F']
      · rcases hcase with hm | haf
        · have hp := processToken_modeKw mcu st raw t hm
          rw [hmode] at hp
          simp only [if_true] at hp
          simp only [parseGo, hp]
          rfl
        · obtain ⟨r, rfl⟩ := take_two_af haf
          have hp := processToken_afPrefix mcu st raw r
          rw [hmode] at hp
          simp only [if_true] at hp
          simp only [parseGo, hp]
          rfl
      · obtain ⟨st', raw', hstep, hmode'⟩ :=
          processToken_valid_other mcu st raw t
            (hvalid t (List.mem_cons_self t ts))
            (fun hm => hcase (Or.inl hm)) (fun ha => hcase (Or.inr ha))
        have hnext : ∃ t' ∈ ts, t' ∈ modeKws ∨ t'.take 2 = ['A','F'] := by
          obtain ⟨t', ht'mem, ht'⟩ := hex
          rcases List.mem_cons.mp ht'mem with rfl | h
          · exact absurd ht' hcase
          · exact ⟨t', h, ht'⟩
        simp only [parseGo, hstep]
        exact ih st' raw' (by rw [hmode']; exact hmode)
          (fun t' h => hvalid t' (List.mem_cons_of_mem t h)) hnext

theorem parseGo_conflict (mcu : Mcu) :
    ∀ (toks : List Str) (st : PinDict) (raw : List Str),
      (∀ t ∈ toks, validTokenB mcu t = true) →
      (∃ t ∈ toks, t ∈ modeKws) →
      (∃ t ∈ toks, t.take 2 = ['A','F']) →
      parseGo mcu st raw toks = .error .conflictingMode := by
  intro toks
  induction toks with
  | nil =>
      intro st raw _ hm _
      simp at hm
  | cons t ts ih =>
      intro st raw hvalid hm haf
      by_cases hmode : st.mode.isSome = true
      · obtain ⟨t', ht'mem, ht'⟩ := hm
        exact parseGo_conflict_of_modeSet mcu (t :: ts) st raw hmode hvalid
          ⟨t', ht'mem, Or.inl ht'⟩
      · by_cases hc1 : t ∈ modeKws
        · have hp := processToken_modeKw mcu st raw t hc1
          rw [Bool.not_eq_true] at hmode
          rw [hmode] at hp
          simp only [Bool.false_eq_true, if_false] at hp
          simp only [parseGo, hp]
          have hafnext : ∃ a ∈ ts, a ∈ modeKws ∨ a.take 2 = ['A','F'] := by
            obtain ⟨a, hamem, ha⟩ := haf
            rcases List.mem_cons.mp hamem with rfl | h
            · exact absurd ha (modeKw_take_two hc1)
            · exact ⟨a, h, Or.inr ha⟩
          exact parseGo_conflict_of_modeSet mcu ts _ _ rfl
            (fun t' h => hvalid t' (List.mem_cons_of_mem t h)) hafnext
        · by_cases hc2 : t.take 2 = ['A','F']
          · obtain ⟨r, rfl⟩ := take_two_af hc2
            have hv := hvalid _ (List.mem_cons_self _ ts)
            have hfamF : inFamiliesB ('A' :: 'F' :: r) = false := by
              simp [inFamiliesB, modeKws, odKws, otypeKws, ospeedKws, pupdKws]
            have hafT : isAfTokenB ('A' :: 'F' :: r) = true := by
              simp only [validTokenB, if_neg (by decide : ¬('A' = 'P')), hfamF,
                Bool.false_or] at hv
              exact hv
            have hpyInt : ∃ v, pyInt r = some v := by
              simp only [isAfTokenB, Bool.and_eq_true, Option.isSome_iff_exists] at hafT
              exact hafT.2
            obtain ⟨v, hpy⟩ := hpyInt
            have hp := processToken_afPrefix mcu st raw r
            rw [Bool.not_eq_true] at hmode
            rw [hmode] at hp
            simp only [Bool.false_eq_true, if_false, hpy] at hp
            simp only [parseGo, hp]
            have hmnext : ∃ a ∈ ts, a ∈ modeKws ∨ a.take 2 = ['A','F'] := by
              obtain ⟨a, hamem, ha⟩ := hm
              rcases List.mem_cons.mp hamem with rfl | h
              · exact absurd ha af_shape_not_mode
              · exact ⟨a, h, Or.inl ha⟩
            exact parseGo_conflict_of_modeSet mcu ts _ _ rfl
              (fun t' h => hvalid t' (List.mem_cons_of_mem _ h)) hmnext
          · obtain ⟨st', raw', hstep, hmode'⟩ :=
              processToken_valid_other mcu st raw t
                (hvalid t (List.mem_cons_self t ts)) hc1 hc2
            simp only [parseGo, hstep]
            have hmnext : ∃ a ∈ ts, a ∈ modeKws := by
              obtain ⟨a, hamem, ha⟩ := hm
              rcases List.mem_cons.mp hamem with rfl | h
              · exact absurd ha hc1
              · exact ⟨a, h, ha⟩
            have hafnext : ∃ a ∈ ts, a.take 2 = ['A','F'] := by
              obtain ⟨a, hamem, ha⟩ := haf
              rcases List.mem_cons.mp hamem with rfl | h
              · exact absurd ha hc2
              · exact ⟨a, h, ha⟩
            exact ih st' raw'
              (fun t' h => hvalid t' (List.mem_cons_of_mem t h)) hmnext hafnext

/-- C4 counterexample: the attribute string `"JUNK, OUTPUT, AF1"`
contains both a mode keyword and an AF keyword, yet parsing fails with
the unknown-keyword error on `JUNK`, not with `ConflictingMode`. -/
theorem c4_counterexample :
    parseDataStr ⟨['A','B'], 16⟩ ("JUNK, OUTPUT, AF1".toList) false =
      .error (.unknownKeyword ("JUNK".toList)) := by rfl

/-- C4 (amended): parsing an attribute string containing both a mode
keyword (INPUT, OUTPUT or ANALOG) and an AF keyword fails with
`ConflictingMode` regardless of the order of the two tokens, provided
every token of the string is valid (a position-token attempt whose
index parses, a keyword-family member, or a well-formed `AF<n>`);
with an invalid token an earlier error (unknown keyword or an
unhandled exception) can fire instead, as the counterexample shows. -/
theorem c4_mode_af_conflict (mcu : Mcu) (s : Str) (dflt : Bool)
    (hm : ∃ t ∈ normTokens s, t ∈ modeKws)
    (haf : ∃ t ∈ normTokens s, t.take 2 = ['A','F'])
    (hvalid : ∀ t ∈ normTokens s, validTokenB mcu t = true) :
    parseDataStr mcu s dflt = .error .conflictingMode := by
  have hgo := parseGo_conflict mcu (normTokens s) {} [] hvalid hm haf
  simp only [parseDataStr, hgo]
  rfl

/-- Witness for C4 at a concrete input: `"OUTPUT, AF1"` (and hypothesis
instances discharged by evaluation). -/
theorem c4_mode_af_conflict_witness :
    parseDataStr ⟨['A','B'], 16⟩ ("OUTPUT, AF1".toList) false =
      .error .conflictingMode :=
  c4_mode_af_conflict ⟨['A','B'], 16⟩ ("OUTPUT, AF1".toList) false
    (by decide) (by decide) (by decide)

/-- C3 counterexample: pin `pa3` declared with attribute string
`"STARTHIGH"` (no position token) against profile ports `{A}`,
4 pins per port.  The claim says the builder derives position (A, 3)
from the name and overwrites that table position; instead the build
terminates with the modelled `TypeError` (the `_Pin(**pin)` namedtuple
call is missing `port`/`num` — the name is never consulted for a
position). -/
theorem c3_counterexample :
    buildPins ⟨['A'], 4⟩
      ("OUTPUT, STARTLOW, PUSHPULL, HIGHSPEED, FLOATING".toList)
      [(("pa3".toList), ("STARTHIGH".toList))] = .error .typeError := by rfl

/-- C3 (amended): for every user-declared pin whose attribute string
parses without a position token, and any default without a position
(checked defaults cannot carry one), `_parse_pin_data` fails with the
`TypeError` of the namedtuple constructor: the position encoded in the
pin's name is never used, so such a declaration crashes the build
rather than overwriting a name-derived table position. -/
theorem c3_no_position_token_crashes (mcu : Mcu) (name pinData : Str)
    (dft data : PinDict) (raw : List Str)
    (hdp : dft.port = none)
    (hp : parseDataStr mcu pinData false = .ok (data, raw))
    (hnopos : data.port = none) :
    parsePinData mcu name pinData dft = .error .typeError := by
  have hstep : parsePinData mcu name pinData dft =
      mkPin (pyUpper name) (dictMerge dft data)
        (pyLower (List.intercalate [',', ' '] raw)) := by
    unfold parsePinData
    rw [hp]
    rfl
  rw [hstep]
  have hport : (dictMerge dft data).port = none := by
    have h1 : (dictMerge dft data).port = data.port.or dft.port := rfl
    rw [h1, hnopos, hdp]
    rfl
  unfold mkPin
  rw [hport]

/-- Witness for C3 at a concrete input: declaring `pa3` with only
`"STARTHIGH"` over a position-free default fails with the namedtuple
`TypeError`. -/
theorem c3_no_position_token_crashes_witness :
    parsePinData ⟨['A'], 4⟩ ("pa3".toList) ("STARTHIGH".toList)
      { mode := some ("OUTPUT".toList), od := some ("LOW".toList),
        otype := some ("PUSHPULL".toList), ospeed := some ("HIGH".toList),
        pupd := some ("FLOATING".toList), af := some 0 } = .error .typeError :=
  c3_no_position_token_crashes ⟨['A'], 4⟩ ("pa3".toList) ("STARTHIGH".toList)
    { mode := some ("OUTPUT".toList), od := some ("LOW".toList),
      otype := some ("PUSHPULL".toList), ospeed := some ("HIGH".toList),
      pupd := some ("FLOATING".toList), af := some 0 }
    { od := some ("HIGH".toList) } [("STARTHIGH".toList)]
    rfl (by rfl) rfl

theorem classify_unknown (st : PinDict) (raw : List Str) (t : Str)
    (hfam : inFamiliesB t = false) (haf : t.take 2 ≠ ['A','F']) :
    classifyToken st raw t = .error (.unknownKeyword t) := by
  simp only [inFamiliesB, Bool.or_eq_false_iff, decide_eq_false_iff_not] at hfam
  obtain ⟨⟨⟨⟨h1, h2⟩, h3⟩, h4⟩, h5⟩ := hfam
  simp [classifyToken, h1, h2, h3, h4, h5, haf]

/-- C7 counterexample: against ports `{A, B}` with 16 pins per port,
the out-of-range position token `PA99` terminates with the same
generic unknown-keyword error that a meaningless word like `JUNKWORD`
receives — there is no distinct `InvalidPosition` member of the error
taxonomy — and the malformed-index token `PAX` does not reach any
validation error at all: it crashes with the modelled `ValueError` of
`int("X")`. -/
theorem c7_counterexample :
    parseDataStr ⟨['A','B'], 16⟩ ("PA99".toList) false =
        .error (.unknownKeyword ("PA99".toList)) ∧
      parseDataStr ⟨['A','B'], 16⟩ ("JUNKWORD".toList) false =
        .error (.unknownKeyword ("JUNKWORD".toList)) ∧
      parseDataStr ⟨['A','B'], 16⟩ ("PAX".toList) false = .error .valueError :=
  ⟨by rfl, by rfl, by rfl⟩

/-- C7 (amended): an out-of-range position token `P<port><n>` — known
port, numeric index `n ≥ pins_per_port` — falls through the position
test into the keyword chain and terminates with the generic
unknown-keyword error (`"Invalid pin keyword ..."`, exit status 1),
not a distinct `InvalidPosition` error; a position-like token whose
index is not a valid number instead raises an unhandled `ValueError`
(see the counterexample). -/
theorem c7_out_of_range_is_unknown_keyword (mcu : Mcu) (st : PinDict)
    (raw : List Str) (c1 : Char) (r2 : Str) (n : Int)
    (hc : c1 ∈ mcu.ports) (hpy : pyInt r2 = some n)
    (hge : (mcu.pinsPerPort : Int) ≤ n) :
    processToken mcu st raw ('P' :: c1 :: r2) =
      .error (.unknownKeyword ('P' :: c1 :: r2)) := by
  rw [processToken_P_outOfRange mcu st raw c1 r2 n hc hpy (not_lt.mpr hge)]
  have hfam : inFamiliesB ('P' :: c1 :: r2) = false := by
    simp only [inFamiliesB, Bool.or_eq_false_iff, decide_eq_false_iff_not]
    refine ⟨⟨⟨⟨?_, ?_⟩, ?_⟩, ?_⟩, ?_⟩
    · simp [modeKws]
    · simp [odKws]
    · intro hmem
      simp only [otypeKws, List.mem_cons, List.not_mem_nil, or_false,
        List.cons.injEq] at hmem
      rcases hmem with ⟨_, rfl, rfl⟩ | ⟨h, _⟩
      · have hnone : pyInt (['S','H','P','U','L','L']) = none := by rfl
        rw [hnone] at hpy
        exact Option.noConfusion hpy
      · exact absurd h (by decide)
    · simp [ospeedKws]
    · intro hmem
      simp only [pupdKws, List.mem_cons, List.not_mem_nil, or_false,
        List.cons.injEq] at hmem
      rcases hmem with ⟨h, _⟩ | ⟨_, rfl, rfl⟩ | ⟨_, rfl, rfl⟩
      · exact absurd h (by decide)
      · have hnone : pyInt (['L','L','U','P']) = none := by rfl
        rw [hnone] at hpy
        exact Option.noConfusion hpy
      · have hnone : pyInt (['L','L','D','O','W','N']) = none := by rfl
        rw [hnone] at hpy
        exact Option.noConfusion hpy
  exact classify_unknown st raw _ hfam (by simp [List.take])

/-- Witness for C7 at a concrete input: `PA99` against ports `{A, B}`
with 16 pins per port. -/
theorem c7_out_of_range_is_unknown_keyword_witness :
    processToken ⟨['A','B'], 16⟩ {} [] ("PA99".toList) =
      .error (.unknownKeyword ("PA99".toList)) :=
  c7_out_of_range_is_unknown_keyword ⟨['A','B'], 16⟩ {} [] 'A' ("99".toList) 99
    (by decide) (by rfl) (by decide)

/-- C8 counterexample: an empty token and the one-character token `P`
match none of the keyword families, but parsing crashes with the
modelled `IndexError` of `elm[0]`/`elm[1]` instead of failing with
`UnknownKeyword`. -/
theorem c8_counterexample :
    parseDataStr ⟨['A','B'], 16⟩ [] false = .error .indexError ∧
      parseDataStr ⟨['A','B'], 16⟩ (['P']) false = .error .indexError :=
  ⟨by rfl, by rfl⟩

/-- C8 (amended): a token matching none of the keyword families fails
with `UnknownKeyword` (carrying the token itself), provided it is
nonempty, is not the bare token `P`, does not continue `P` with a known
port letter (those tokens crash with `IndexError`/`ValueError`, as the
counterexample and C7 show), and does not begin with `AF` (such tokens
crash in `int(...)` or, with a mode already set, fail with
`ConflictingMode`). -/
theorem c8_unknown_token_error (mcu : Mcu) (st : PinDict) (raw : List Str)
    (t : Str)
    (h0 : t ≠ [])
    (hp1 : t ≠ ['P'])
    (hports : ∀ c1 r2, t = 'P' :: c1 :: r2 → c1 ∉ mcu.ports)
    (hfam : inFamiliesB t = false)
    (haf : t.take 2 ≠ ['A','F']) :
    processToken mcu st raw t = .error (.unknownKeyword t) := by
  cases t with
  | nil => exact absurd rfl h0
  | cons c0 rest =>
      by_cases hP : c0 = 'P'
      · subst hP
        cases rest with
        | nil => exact absurd rfl hp1
        | cons c1 r2 =>
            rw [processToken_P_noport mcu st raw c1 r2 (hports c1 r2 rfl)]
            exact classify_unknown st raw _ hfam haf
      · rw [processToken_not_P mcu st raw c0 rest hP]
        exact classify_unknown st raw _ hfam haf

/-- Witness for C8 at a concrete input: the token `FOO`. -/
theorem c8_unknown_token_error_witness :
    processToken ⟨['A','B'], 16⟩ {} [] ("FOO".toList) =
      .error (.unknownKeyword ("FOO".toList)) :=
  c8_unknown_token_error ⟨['A','B'], 16⟩ {} [] ("FOO".toList)
    (by decide) (by decide) (fun c1 r2 h => by simp at h) (by rfl) (by decide)

/-- One `PIN_AFIO_AF(GPIO<port>_<name>, <af>U)` term of `write_io_ports`. -/
def afioTerm (port : Char) (pin : Pin) : Str :=
  ("PIN_AFIO_AF(GPIO".toList) ++ [port] ++ ('_' :: pin.name) ++ (", ".toList) ++
    (toString pin.af).toList ++ ("U)".toList)

/-- The term list of the `VAL_GPIO<port>_AFRL` expression:
`[... for pin in pins.iter_port(port) if pin.num < 8]`. -/
def afrlTerms (port : Char) (pins : List Pin) : List Str :=
  (pins.filter (fun pin => pin.num < 8)).map (afioTerm port)

/-- The term list of the `VAL_GPIO<port>_AFRH` expression:
`[... for pin in pins.iter_port(port) if pin.num >= 8]`. -/
def afrhTerms (port : Char) (pins : List Pin) : List Str :=
  (pins.filter (fun pin => 8 ≤ pin.num)).map (afioTerm port)

/-- The separator `" | \\\n<36 spaces>"` joining terms of a register
expression. -/
def ioTermSep : Str := (" | \\\n                                        ".toList)

/-- The full `#define VAL_GPIO<port>_AFRL ...` output line. -/
def afrlLine (port : Char) (pins : List Pin) : Str :=
  ("#define VAL_GPIO".toList) ++ [port] ++ ("_AFRL                 (".toList) ++
    List.intercalate ioTermSep (afrlTerms port pins) ++ (")".toList) ++ ['\n']

/-- The full `#define VAL_GPIO<port>_AFRH ...` output line. -/
def afrhLine (port : Char) (pins : List Pin) : Str :=
  ("#define VAL_GPIO".toList) ++ [port] ++ ("_AFRH                 (".toList) ++
    List.intercalate ioTermSep (afrhTerms port pins) ++ (")".toList) ++ ['\n']

theorem filter_num_split (off : Nat) (ps : List Pin)
    (h : ∀ k (hk : k < ps.length), (ps.get ⟨k, hk⟩).num = ((off + k : Nat) : Int)) :
    ps.filter (fun pin => pin.num < 8) = ps.take (8 - off) ∧
      ps.filter (fun pin => 8 ≤ pin.num) = ps.drop (8 - off) := by
  induction ps generalizing off with
  | nil => simp
  | cons a as ih =>
      have h0 : a.num = (off : Int) := by
        have := h 0 (by simp)
        simpa using this
      have hrest : ∀ k (hk : k < as.length),
          (as.get ⟨k, hk⟩).num = (((off + 1) + k : Nat) : Int) := by
        intro k hk
        have := h (k + 1) (by simpa using Nat.succ_lt_succ hk)
        simp only [List.get_cons_succ] at this
        rw [this]
        congr 1
        omega
      obtain ⟨ih1, ih2⟩ := ih (off + 1) hrest
      by_cases hoff : off < 8
      · have hlt : a.num < 8 := by
          rw [h0]
          exact_mod_cast hoff
        have htake : 8 - off = (8 - (off + 1)) + 1 := by omega
        constructor
        · rw [List.filter_cons_of_pos (by simpa using hlt), htake, List.take_succ_cons, ih1]
        · rw [List.filter_cons_of_neg (by simpa using not_le.mpr hlt), htake,
            List.drop_succ_cons, ih2]
      · have hge : (8 : Int) ≤ a.num := by
          rw [h0]
          exact_mod_cast not_lt.mp hoff
        have htake0 : 8 - off = 0 := by omega
        have htake0' : 8 - (off + 1) = 0 := by omega
        constructor
        · rw [List.filter_cons_of_neg (by simpa using not_lt.mpr hge), htake0,
            List.take_zero, ih1, htake0', List.take_zero]
        · rw [List.filter_cons_of_pos (by simpa using hge), htake0, List.drop_zero,
            ih2, htake0', List.drop_zero]

/-- C9: when the records of a port's table hold their own index as
`num` (record `k` has `num = k`, which the builder establishes for
every table it completes), the AFRL expression's term list is exactly
one `PIN_AFIO_AF` term per pin of index `< 8`, and the AFRH list
exactly one per pin of index `≥ 8`, both in index order: they are the
images of `take 8` and `drop 8` of the port's pin list. -/
theorem c9_afrl_afrh_split (port : Char) (ps : List Pin)
    (hcoh : ∀ k (hk : k < ps.length), (ps.get ⟨k, hk⟩).num = (k : Int)) :
    afrlTerms port ps = (ps.take 8).map (afioTerm port) ∧
      afrhTerms port ps = (ps.drop 8).map (afioTerm port) := by
  have h := filter_num_split 0 ps (by simpa using hcoh)
  exact ⟨by rw [afrlTerms, h.1], by rw [afrhTerms, h.2]⟩

/-- Witness for C9 on a concrete 10-pin port table with `num = index`:
AFRL takes the first eight pins, AFRH the remaining two. -/
theorem c9_afrl_afrh_split_witness :
    afrlTerms 'A' ((List.range 10).map (fun n =>
        ⟨pinName n, 'A', (n : Int), ("INPUT".toList), ("LOW".toList),
          ("PUSHPULL".toList), ("HIGH".toList), ("FLOATING".toList), 0,
          ("unused".toList)⟩)) =
      ((((List.range 10).map (fun n =>
        (⟨pinName n, 'A', (n : Int), ("INPUT".toList), ("LOW".toList),
          ("PUSHPULL".toList), ("HIGH".toList), ("FLOATING".toList), 0,
          ("unused".toList)⟩ : Pin))).take 8).map (afioTerm 'A')) ∧
      afrhTerms 'A' ((List.range 10).map (fun n =>
        ⟨pinName n, 'A', (n : Int), ("INPUT".toList), ("LOW".toList),
          ("PUSHPULL".toList), ("HIGH".toList), ("FLOATING".toList), 0,
          ("unused".toList)⟩)) =
      ((((List.range 10).map (fun n =>
        (⟨pinName n, 'A', (n : Int), ("INPUT".toList), ("LOW".toList),
          ("PUSHPULL".toList), ("HIGH".toList), ("FLOATING".toList), 0,
          ("unused".toList)⟩ : Pin))).drop 8).map (afioTerm 'A')) :=
  c9_afrl_afrh_split 'A' _ (by decide)

theorem pySetList_some {α : Type} {l : List α} {i : Int} {v : α} {l' : List α}
    (h : pySetList l i v = some l') :
    ∃ j : Nat, j < l.length ∧ (j : Int) = pyNormIdx l.length i ∧ l' = l.set j v := by
  unfold pySetList at h
  by_cases hc : 0 ≤ pyNormIdx l.length i ∧ pyNormIdx l.length i < (l.length : Int)
  · rw [if_pos hc] at h
    injection h with h'
    refine ⟨(pyNormIdx l.length i).toNat, ?_, ?_, h'.symm⟩
    · omega
    · omega
  · rw [if_neg hc] at h
    exact Option.noConfusion h

theorem forall₂_self {α : Type} {R : α → α → Prop} {l : List α}
    (h : ∀ a ∈ l, R a a) : List.Forall₂ R l l := by
  induction l with
  | nil => exact List.Forall₂.nil
  | cons a as ih =>
      exact List.Forall₂.cons (h a (List.mem_cons_self a as))
        (ih (fun b hb => h b (List.mem_cons_of_mem a hb)))

theorem forall₂_mem_right {α β : Type} {R : α → β → Prop} {l : List α} {l' : List β}
    (h : List.Forall₂ R l l') {b : β} (hb : b ∈ l') : ∃ a ∈ l, R a b := by
  induction h with
  | nil => exact absurd hb (List.not_mem_nil b)
  | cons hr _ ih =>
      rcases List.mem_cons.mp hb with rfl | hb'
      · exact ⟨_, List.mem_cons_self _ _, hr⟩
      · obtain ⟨a, ha, har⟩ := ih hb'
        exact ⟨a, List.mem_cons_of_mem _ ha, har⟩

/-- The row-wise effect of `tableSet`: every entry keeps its port, and
its row is unchanged or has exactly one position overwritten with the
new pin. -/
theorem tableSet_forall₂ {tbl : Table} {p : Char} {i : Int} {pin : Pin} {tbl' : Table}
    (h : tableSet tbl p i pin = .ok tbl') :
    List.Forall₂ (fun pr pr' => pr'.1 = pr.1 ∧
      (pr'.2 = pr.2 ∨ ∃ j, j < pr.2.length ∧ pr'.2 = pr.2.set j pin)) tbl tbl' := by
  induction tbl generalizing tbl' with
  | nil => exact Except.noConfusion h
  | cons hd rest ih =>
      obtain ⟨q, row⟩ := hd
      by_cases hq : q = p
      · simp only [tableSet, if_pos hq] at h
        cases hset : pySetList row i pin with
        | none => rw [hset] at h; exact Except.noConfusion h
        | some row2 =>
            rw [hset] at h
            injection h with h'
            obtain ⟨j, hj, _, rfl⟩ := pySetList_some hset
            rw [← h']
            exact List.Forall₂.cons ⟨rfl, Or.inr ⟨j, hj, rfl⟩⟩
              (forall₂_self (fun a _ => ⟨rfl, Or.inl rfl⟩))
      · simp only [tableSet, if_neg hq] at h
        cases hrec : tableSet rest p i pin with
        | error e => rw [hrec] at h; exact Except.noConfusion h
        | ok rest' =>
            rw [hrec] at h
            have h2 : Except.ok ((q, row) :: rest') = Except.ok tbl' := h
            injection h2 with h3
            rw [← h3]
            exact List.Forall₂.cons ⟨rfl, Or.inl rfl⟩ (ih hrec)

theorem forall₂_map_fst {tbl tbl' : Table}
    (h : List.Forall₂ (fun pr pr' => pr'.1 = pr.1 ∧
      (pr'.2 = pr.2 ∨ ∃ j, j < pr.2.length ∧ pr'.2 = pr.2.set j pin)) tbl tbl') :
    tbl'.map Prod.fst = tbl.map Prod.fst := by
  induction h with
  | nil => rfl
  | cons hr _ ih => simp only [List.map_cons, ih, hr.1]

theorem forall₂_row_length {tbl tbl' : Table} {pin : Pin}
    (h : List.Forall₂ (fun pr pr' => pr'.1 = pr.1 ∧
      (pr'.2 = pr.2 ∨ ∃ j, j < pr.2.length ∧ pr'.2 = pr.2.set j pin)) tbl tbl')
    {pr' : Char × List Pin} (hm : pr' ∈ tbl') :
    ∃ pr ∈ tbl, pr'.1 = pr.1 ∧ pr'.2.length = pr.2.length := by
  obtain ⟨pr, hpr, h1, h2⟩ := forall₂_mem_right h hm
  refine ⟨pr, hpr, h1, ?_⟩
  rcases h2 with h2 | ⟨j, _, h2⟩
  · rw [h2]
  · rw [h2]
    exact List.length_set pr.2 j pin

theorem mapE_ok_length {α β : Type} (f : α → Except PErr β) :
    ∀ (l : List α) (l' : List β), mapE f l = .ok l' → l'.length = l.length := by
  intro l
  induction l with
  | nil =>
      intro l' h
      injection h with h'
      rw [← h']
      rfl
  | cons a as ih =>
      intro l' h
      simp only [mapE] at h
      cases hfa : f a with
      | error e => rw [hfa] at h; exact Except.noConfusion h
      | ok b =>
          rw [hfa] at h
          cases hrec : mapE f as with
          | error e =>
              rw [hrec] at h
              exact Except.noConfusion h
          | ok bs =>
              rw [hrec] at h
              have h2 : Except.ok (b :: bs) = Except.ok l' := h
              injection h2 with h3
              rw [← h3]
              simp [ih bs hrec]

theorem mapE_ok_get {α β : Type} (f : α → Except PErr β) :
    ∀ (l : List α) (l' : List β), mapE f l = .ok l' →
      ∀ (k : Nat) (hk : k < l.length) (hk' : k < l'.length),
        f (l.get ⟨k, hk⟩) = .ok (l'.get ⟨k, hk'⟩) := by
  intro l
  induction l with
  | nil => intro l' h k hk; exact absurd hk (by simp)
  | cons a as ih =>
      intro l' h k hk hk'
      simp only [mapE] at h
      cases hfa : f a with
      | error e => rw [hfa] at h; exact Except.noConfusion h
      | ok b =>
          rw [hfa] at h
          cases hrec : mapE f as with
          | error e => rw [hrec] at h; exact Except.noConfusion h
          | ok bs =>
              rw [hrec] at h
              have h2 : Except.ok (b :: bs) = Except.ok l' := h
              injection h2 with h3
              subst h3
              cases k with
              | zero => exact hfa
              | succ k0 =>
                  exact ih bs hrec k0 (Nat.lt_of_succ_lt_succ hk)
                    (Nat.lt_of_succ_lt_succ hk')

theorem foldE_append_ok {α σ : Type} (f : σ → α → Except PErr σ) :
    ∀ (xs ys : List α) (s r : σ), foldE f s (xs ++ ys) = .ok r →
      ∃ m, foldE f s xs = .ok m ∧ foldE f m ys = .ok r := by
  intro xs
  induction xs with
  | nil => intro ys s r h; exact ⟨s, rfl, h⟩
  | cons a as ih =>
      intro ys s r h
      simp only [List.cons_append, foldE] at h ⊢
      cases hfa : f s a with
      | error e => rw [hfa] at h; exact Except.noConfusion h
      | ok s' =>
          rw [hfa] at h
          exact ih ys s' r h

theorem foldE_inv {α σ : Type} (f : σ → α → Except PErr σ) (P : σ → Prop) :
    ∀ (l : List α) (s r : σ),
      (∀ s₀ a s₁, a ∈ l → P s₀ → f s₀ a = .ok s₁ → P s₁) →
      P s → foldE f s l = .ok r → P r := by
  intro l
  induction l with
  | nil =>
      intro s r _ hs h
      injection h with h'
      rw [← h']
      exact hs
  | cons a as ih =>
      intro s r hstep hs h
      simp only [foldE] at h
      cases hfa : f s a with
      | error e => rw [hfa] at h; exact Except.noConfusion h
      | ok s' =>
          rw [hfa] at h
          exact ih s' r
            (fun s₀ b s₁ hb => hstep s₀ b s₁ (List.mem_cons_of_mem a hb))
            (hstep s a s' (List.mem_cons_self a as) hs hfa) h

theorem applyDecl_ok {mcu : Mcu} {d : PinDict} {st : Pins} {decl : Str × Str}
    {st' : Pins} (h : applyDecl mcu d st decl = .ok st') :
    ∃ pin, parsePinData mcu decl.1 decl.2 d = .ok pin ∧
      tableSet st.pins pin.port pin.num pin = .ok st'.pins ∧
      st'.pinsByName = byNameInsert st.pinsByName pin.name pin := by
  unfold applyDecl at h
  cases hp : parsePinData mcu decl.1 decl.2 d with
  | error e => rw [hp] at h; exact Except.noConfusion h
  | ok pin =>
      rw [hp] at h
      have h2 : (do
          let tbl ← tableSet st.pins pin.port pin.num pin
          Except.ok (⟨tbl, byNameInsert st.pinsByName pin.name pin⟩ : Pins)) = .ok st' := h
      cases hts : tableSet st.pins pin.port pin.num pin with
      | error e => rw [hts] at h2; exact Except.noConfusion h2
      | ok tbl =>
          rw [hts] at h2
          have h3 : Except.ok (⟨tbl, byNameInsert st.pinsByName pin.name pin⟩ : Pins) =
              Except.ok st' := h2
          injection h3 with h4
          rw [← h4]
          exact ⟨pin, rfl, hts, rfl⟩

theorem get_eq_of_eq {α : Type} {l l' : List α} (h : l = l') {k : Nat}
    (hk : k < l.length) (hk' : k < l'.length) : l.get ⟨k, hk⟩ = l'.get ⟨k, hk'⟩ := by
  subst h
  rfl

/-- The shape invariant of the pin table: keys are exactly the
profile's ports (in order), every row has `pins_per_port` records. -/
def TableShape (mcu : Mcu) (tbl : Table) : Prop :=
  tbl.map Prod.fst = mcu.ports ∧ ∀ pr ∈ tbl, pr.2.length = mcu.pinsPerPort

theorem tableShape_tableSet {mcu : Mcu} {tbl : Table} {p : Char} {i : Int}
    {pin : Pin} {tbl' : Table} (hs : TableShape mcu tbl)
    (h : tableSet tbl p i pin = .ok tbl') : TableShape mcu tbl' := by
  have hf := tableSet_forall₂ h
  constructor
  · rw [forall₂_map_fst hf]
    exact hs.1
  · intro pr' hm
    obtain ⟨pr, hpr, _, hlen⟩ := forall₂_row_length hf hm
    rw [hlen]
    exact hs.2 pr hpr

theorem mkDefaultPin_ok_name {d : PinDict} {p : Char} {k : Nat} {pin : Pin}
    (h : mkDefaultPin d p k = .ok pin) : pin.name = pinName k := by
  unfold mkDefaultPin at h
  split at h
  · injection h with h'
    rw [← h']
  · exact Except.noConfusion h

theorem makeInitialTable_get {mcu : Mcu} {d : PinDict} {tbl0 : Table}
    (h : makeInitialTable mcu d = .ok tbl0) (k : Nat) (hk : k < tbl0.length) :
    ∃ hk2 : k < mcu.ports.length,
      (tbl0.get ⟨k, hk⟩).1 = mcu.ports.get ⟨k, hk2⟩ ∧
      mapE (fun n => mkDefaultPin d ((tbl0.get ⟨k, hk⟩).1) n)
        (List.range mcu.pinsPerPort) = .ok ((tbl0.get ⟨k, hk⟩).2) := by
  unfold makeInitialTable at h
  have hlen := mapE_ok_length _ _ _ h
  have hk2 : k < mcu.ports.length := by omega
  refine ⟨hk2, ?_⟩
  have hgk := mapE_ok_get _ _ _ h k hk2 hk
  cases hrow : mapE (fun n => mkDefaultPin d (mcu.ports.get ⟨k, hk2⟩) n)
      (List.range mcu.pinsPerPort) with
  | error e =>
      rw [hrow] at hgk
      exact Except.noConfusion hgk
  | ok row =>
      rw [hrow] at hgk
      have h2 : Except.ok ((mcu.ports.get ⟨k, hk2⟩, row) : Char × List Pin) =
          Except.ok (tbl0.get ⟨k, hk⟩) := hgk
      injection h2 with h3
      constructor
      · rw [← h3]
      · rw [← h3]
        exact hrow

theorem makeInitialTable_ok {mcu : Mcu} {d : PinDict} {tbl0 : Table}
    (h : makeInitialTable mcu d = .ok tbl0) :
    TableShape mcu tbl0 ∧
      ∀ pr ∈ tbl0, ∀ k (hk : k < pr.2.length),
        mkDefaultPin d pr.1 k = .ok (pr.2.get ⟨k, hk⟩) := by
  have hlen : tbl0.length = mcu.ports.length := by
    unfold makeInitialTable at h
    exact mapE_ok_length _ _ _ h
  have hrowfact : ∀ pr ∈ tbl0,
      mapE (fun n => mkDefaultPin d pr.1 n) (List.range mcu.pinsPerPort) = .ok pr.2 := by
    intro pr hm
    obtain ⟨⟨k, hk⟩, hget⟩ := List.mem_iff_get.mp hm
    obtain ⟨hk2, _, hrow⟩ := makeInitialTable_get h k hk
    rw [hget] at hrow
    exact hrow
  refine ⟨⟨?_, ?_⟩, ?_⟩
  · apply List.ext_get
    · rw [List.length_map]
      exact hlen
    · intro n h1 h2
      rw [List.get_map]
      obtain ⟨hk2, hfst, _⟩ := makeInitialTable_get h n (by rw [List.length_map] at h1; exact h1)
      rw [hfst]
  · intro pr hm
    have := mapE_ok_length _ _ _ (hrowfact pr hm)
    rw [List.length_range] at this
    exact this
  · intro pr hm k hk
    have hrow := hrowfact pr hm
    have hkr : k < (List.range mcu.pinsPerPort).length := by
      rw [List.length_range]
      have := mapE_ok_length _ _ _ hrow
      rw [List.length_range] at this
      omega
    have := mapE_ok_get _ _ _ hrow k hkr hk
    rw [List.get_range] at this
    exact this

/-- The position invariant of the pin table: every record is either the
parse of some user declaration, or the default-filled placeholder for
its position, named `PIN<index>`. -/
def PosOk (mcu : Mcu) (d : PinDict) (decls : List (Str × Str)) (tbl : Table) : Prop :=
  ∀ pr ∈ tbl, ∀ k (hk : k < pr.2.length),
    (∃ nm s, (nm, s) ∈ decls ∧ parsePinData mcu nm s d = .ok (pr.2.get ⟨k, hk⟩)) ∨
    ((pr.2.get ⟨k, hk⟩).name = pinName k ∧
      mkDefaultPin d pr.1 k = .ok (pr.2.get ⟨k, hk⟩))

theorem posOk_tableSet {mcu : Mcu} {d : PinDict} {decls : List (Str × Str)}
    {tbl : Table} {p : Char} {i : Int} {pin : Pin} {tbl' : Table}
    (hpos : PosOk mcu d decls tbl)
    (hpin : ∃ nm s, (nm, s) ∈ decls ∧ parsePinData mcu nm s d = .ok pin)
    (h : tableSet tbl p i pin = .ok tbl') : PosOk mcu d decls tbl' := by
  have hf := tableSet_forall₂ h
  intro pr' hm' k hk
  obtain ⟨pr, hpr, h1, h2⟩ := forall₂_mem_right hf hm'
  rcases h2 with h2 | ⟨j, hj, h2⟩
  · have hk2 : k < pr.2.length := by rw [← h2]; exact hk
    rw [get_eq_of_eq h2 hk hk2, h1]
    exact hpos pr hpr k hk2
  · have hk2 : k < pr.2.length := by
      rw [h2, List.length_set] at hk
      exact hk
    have hget : pr'.2.get ⟨k, hk⟩ =
        if j = k then pin else pr.2.get ⟨k, hk2⟩ := by
      have hk3 : k < (pr.2.set j pin).length := by rw [← h2]; exact hk
      rw [get_eq_of_eq h2 hk hk3]
      rw [List.get_eq_getElem, List.get_eq_getElem]
      exact List.getElem_set hk3
    by_cases hjk : j = k
    · rw [hget, if_pos hjk]
      exact Or.inl hpin
    · rw [hget, if_neg hjk, h1]
      exact hpos pr hpr k hk2

/-- The total number of records of the table. -/
def tableTotal (tbl : Table) : Nat := (tbl.map (fun pr => pr.2.length)).sum

theorem tableTotal_eq {tbl : Table} {n : Nat} (h : ∀ pr ∈ tbl, pr.2.length = n) :
    tableTotal tbl = tbl.length * n := by
  induction tbl with
  | nil => simp [tableTotal]
  | cons pr rest ih =>
      have : tableTotal (pr :: rest) = pr.2.length + tableTotal rest := by
        simp [tableTotal]
      rw [this, h pr (List.mem_cons_self pr rest),
        ih (fun q hq => h q (List.mem_cons_of_mem pr hq)), List.length_cons,
        Nat.succ_mul, Nat.add_comm]

theorem tableFind_of_mem_fst {tbl : Table} {p : Char}
    (h : p ∈ tbl.map Prod.fst) : ∃ row, tableFind tbl p = some row ∧ (p, row) ∈ tbl := by
  induction tbl with
  | nil => simp at h
  | cons pr rest ih =>
      obtain ⟨q, row0⟩ := pr
      by_cases hq : q = p
      · subst hq
        exact ⟨row0, by simp [tableFind], List.mem_cons_self _ _⟩
      · have h2 : p ∈ rest.map Prod.fst := by
          simp only [List.map_cons, List.mem_cons] at h
          rcases h with rfl | h
          · exact absurd rfl hq
          · exact h
        obtain ⟨row, hfind, hmem⟩ := ih h2
        exact ⟨row, by simp [tableFind, hq, hfind], List.mem_cons_of_mem _ hmem⟩

/-- C5: after a successful build the pin table has exactly
`|ports| × pins_per_port` records — its keys are exactly the profile's
ports and every row has `pins_per_port` entries, so each `(port, index)`
pair addresses exactly one record, and a record exists at every such
pair.  Every record is a complete `Pin` (the namedtuple construction
only succeeds with all attribute fields supplied), and every record is
either the parse of a user declaration or the default placeholder for
its position named `PIN<index>`. -/
theorem c5_table_invariant (mcu : Mcu) (defaultStr : Str)
    (decls : List (Str × Str)) (d : PinDict) (raw0 : List Str) (st : Pins)
    (hd : parseDataStr mcu defaultStr true = .ok (d, raw0))
    (hok : buildPins mcu defaultStr decls = .ok st) :
    tableTotal st.pins = mcu.ports.length * mcu.pinsPerPort ∧
      st.pins.map Prod.fst = mcu.ports ∧
      (∀ pr ∈ st.pins, pr.2.length = mcu.pinsPerPort) ∧
      (∀ p ∈ mcu.ports, ∀ k, k < mcu.pinsPerPort →
        ∃ pin, tableGetNat st.pins p k = some pin) ∧
      PosOk mcu d decls st.pins := by
  unfold buildPins at hok
  rw [hd] at hok
  have hok2 : (do
      let tbl0 ← makeInitialTable mcu d
      foldE (applyDecl mcu d) ⟨tbl0, []⟩ decls) = .ok st := hok
  cases hmit : makeInitialTable mcu d with
  | error e => rw [hmit] at hok2; exact Except.noConfusion hok2
  | ok tbl0 =>
      rw [hmit] at hok2
      have hfold : foldE (applyDecl mcu d) ⟨tbl0, []⟩ decls = .ok st := hok2
      obtain ⟨hshape0, hdef0⟩ := makeInitialTable_ok hmit
      have hpos0 : PosOk mcu d decls tbl0 := by
        intro pr hm k hk
        exact Or.inr ⟨mkDefaultPin_ok_name (hdef0 pr hm k hk), hdef0 pr hm k hk⟩
      have hinv := foldE_inv (applyDecl mcu d)
        (fun s => TableShape mcu s.pins ∧ PosOk mcu d decls s.pins) decls
        ⟨tbl0, []⟩ st
        (by
          intro s₀ a s₁ ha hP hstep
          obtain ⟨pin, hparse, hts, _⟩ := applyDecl_ok hstep
          exact ⟨tableShape_tableSet hP.1 hts,
            posOk_tableSet hP.2 ⟨a.1, a.2, ha, hparse⟩ hts⟩)
        ⟨hshape0, hpos0⟩ hfold
      obtain ⟨⟨hkeys, hrows⟩, hpos⟩ := hinv
      refine ⟨?_, hkeys, hrows, ?_, hpos⟩
      · rw [tableTotal_eq hrows]
        congr 1
        rw [← hkeys, List.length_map]
      · intro p hp k hk
        obtain ⟨row, hfind, hmem⟩ := tableFind_of_mem_fst (by rw [hkeys]; exact hp)
        have hlen : row.length = mcu.pinsPerPort := hrows (p, row) hmem
        have hkrow : k < row.length := by omega
        refine ⟨row.get ⟨k, hkrow⟩, ?_⟩
        unfold tableGetNat
        rw [hfind]
        exact List.get?_eq_get hkrow

/-- Witness for C5 at a concrete build: one port `B` with 6 pins and a
single declared pin; the table holds `1 × 6` records. -/
theorem c5_table_invariant_witness :
    tableTotal ((buildPins ⟨['B'], 6⟩
        ("OUTPUT, STARTLOW, PUSHPULL, HIGHSPEED, FLOATING".toList)
        [(("led1".toList), ("PB5, AF3".toList))]).toOption.getD
          ⟨[], []⟩).pins = (['B']).length * 6 :=
  (c5_table_invariant ⟨['B'], 6⟩
    ("OUTPUT, STARTLOW, PUSHPULL, HIGHSPEED, FLOATING".toList)
    [(("led1".toList), ("PB5, AF3".toList))]
    { mode := some ("OUTPUT".toList), od := some ("LOW".toList),
      otype := some ("PUSHPULL".toList), ospeed := some ("HIGH".toList),
      pupd := some ("FLOATING".toList), af := some 0 }
    [("OUTPUT".toList), ("STARTLOW".toList), ("PUSHPULL".toList),
      ("HIGHSPEED".toList), ("FLOATING".toList)]
    ((buildPins ⟨['B'], 6⟩
        ("OUTPUT, STARTLOW, PUSHPULL, HIGHSPEED, FLOATING".toList)
        [(("led1".toList), ("PB5, AF3".toList))]).toOption.getD ⟨[], []⟩)
    (by rfl) (by rfl)).1

theorem tableFind_some_mem {tbl : Table} {p : Char} {row : List Pin}
    (h : tableFind tbl p = some row) : (p, row) ∈ tbl := by
  induction tbl with
  | nil => exact Option.noConfusion h
  | cons pr rest ih =>
      obtain ⟨q, row0⟩ := pr
      by_cases hq : q = p
      · subst hq
        simp only [tableFind, if_pos rfl] at h
        injection h with h'
        rw [← h']
        exact List.mem_cons_self _ _
      · simp only [tableFind, if_neg hq] at h
        exact List.mem_cons_of_mem _ (ih h)

theorem tableSet_find_same {tbl : Table} {p : Char} {i : Int} {pin : Pin}
    {tbl' : Table} (h : tableSet tbl p i pin = .ok tbl') :
    ∃ row, tableFind tbl p = some row ∧
      0 ≤ pyNormIdx row.length i ∧ pyNormIdx row.length i < (row.length : Int) ∧
      tableFind tbl' p = some (row.set (pyNormIdx row.length i).toNat pin) := by
  induction tbl generalizing tbl' with
  | nil => exact Except.noConfusion h
  | cons pr rest ih =>
      obtain ⟨q, row0⟩ := pr
      by_cases hq : q = p
      · simp only [tableSet, if_pos hq] at h
        cases hset : pySetList row0 i pin with
        | none => rw [hset] at h; exact Except.noConfusion h
        | some row2 =>
            rw [hset] at h
            injection h with h'
            subst hq
            obtain ⟨j, hj, hnorm, hrow2⟩ := pySetList_some hset
            refine ⟨row0, by simp [tableFind], by omega, by omega, ?_⟩
            rw [← h']
            have hfr : tableFind ((q, row2) :: rest) q = some row2 := by
              simp [tableFind]
            rw [hfr, hrow2]
            have hj2 : (pyNormIdx row0.length i).toNat = j := by omega
            rw [hj2]
      · simp only [tableSet, if_neg hq] at h
        cases hrec : tableSet rest p i pin with
        | error e => rw [hrec] at h; exact Except.noConfusion h
        | ok rest' =>
            rw [hrec] at h
            have h2 : Except.ok ((q, row0) :: rest') = Except.ok tbl' := h
            injection h2 with h3
            obtain ⟨row, hfind, hnn, hlt, hfind'⟩ := ih hrec
            refine ⟨row, by simp [tableFind, hq, hfind], hnn, hlt, ?_⟩
            rw [← h3]
            simp [tableFind, hq, hfind']

theorem tableSet_find_other {tbl : Table} {p : Char} {i : Int} {pin : Pin}
    {tbl' : Table} (h : tableSet tbl p i pin = .ok tbl') (q : Char) (hq : q ≠ p) :
    tableFind tbl' q = tableFind tbl q := by
  induction tbl generalizing tbl' with
  | nil => exact Except.noConfusion h
  | cons pr rest ih =>
      obtain ⟨q0, row0⟩ := pr
      by_cases hq0 : q0 = p
      · simp only [tableSet, if_pos hq0] at h
        cases hset : pySetList row0 i pin with
        | none => rw [hset] at h; exact Except.noConfusion h
        | some row2 =>
            rw [hset] at h
            injection h with h'
            rw [← h']
            have hq0q : ¬(q0 = q) := fun hcc => hq (hcc ▸ hq0)
            simp [tableFind, hq0q]
      · simp only [tableSet, if_neg hq0] at h
        cases hrec : tableSet rest p i pin with
        | error e => rw [hrec] at h; exact Except.noConfusion h
        | ok rest' =>
            rw [hrec] at h
            have h2 : Except.ok ((q0, row0) :: rest') = Except.ok tbl' := h
            injection h2 with h3
            rw [← h3]
            by_cases hq0q : q0 = q
            · simp [tableFind, hq0q]
            · simp [tableFind, hq0q, ih hrec]

theorem tableSet_getNat_same {tbl : Table} {p : Char} {i : Int} {pin : Pin}
    {tbl' : Table} (h : tableSet tbl p i pin = .ok tbl') :
    ∃ row, tableFind tbl p = some row ∧
      0 ≤ pyNormIdx row.length i ∧
      tableGetNat tbl' p (pyNormIdx row.length i).toNat = some pin := by
  obtain ⟨row, hfind, hnn, hlt, hfind'⟩ := tableSet_find_same h
  refine ⟨row, hfind, hnn, ?_⟩
  unfold tableGetNat
  rw [hfind']
  have hlt2 : (pyNormIdx row.length i).toNat < row.length := by omega
  show (row.set (pyNormIdx row.length i).toNat pin).get?
      (pyNormIdx row.length i).toNat = some pin
  rw [List.get?_eq_getElem?]
  exact List.getElem?_set_eq_of_lt pin hlt2

theorem tableSet_getNat_preserve {tbl : Table} {p : Char} {i : Int} {pin : Pin}
    {tbl' : Table} (h : tableSet tbl p i pin = .ok tbl') (q : Char) (j : Nat)
    (hcond : ¬(p = q) ∨
      ∀ row, tableFind tbl p = some row → (j : Int) ≠ pyNormIdx row.length i) :
    tableGetNat tbl' q j = tableGetNat tbl q j := by
  by_cases hq : q = p
  · subst hq
    rcases hcond with hne | hidx
    · exact absurd rfl hne
    · obtain ⟨row, hfind, hnn0, _, hfind'⟩ := tableSet_find_same h
      unfold tableGetNat
      rw [hfind, hfind']
      have hju : (pyNormIdx row.length i).toNat ≠ j := by
        intro hcc
        apply hidx row hfind
        rw [← hcc]
        omega
      show (row.set (pyNormIdx row.length i).toNat pin).get? j = row.get? j
      rw [List.get?_eq_getElem?, List.get?_eq_getElem?]
      exact List.getElem?_set_ne hju
  · unfold tableGetNat
    rw [tableSet_find_other h q hq]

/-- C6: when two user declarations target the same table position, the
final record at that position is exactly the parse of the later
declaration against the board default alone — produced without any
reference to the earlier declaration, so no attribute of the earlier
record survives.  `(nm₂, s₂)` is the last declaration targeting
`pin2`'s position; `(nm₁, s₁)` is any earlier declaration targeting the
same position. -/
theorem c6_last_declaration_wins (mcu : Mcu) (defaultStr : Str)
    (l₁ : List (Str × Str)) (nm₁ s₁ : Str) (l₂ : List (Str × Str))
    (nm₂ s₂ : Str) (l₃ : List (Str × Str)) (d : PinDict) (raw0 : List Str)
    (pin1 pin2 : Pin) (st : Pins)
    (hd : parseDataStr mcu defaultStr true = .ok (d, raw0))
    (h1 : parsePinData mcu nm₁ s₁ d = .ok pin1)
    (h2 : parsePinData mcu nm₂ s₂ d = .ok pin2)
    (hsame : pin1.port = pin2.port ∧
      pyNormIdx mcu.pinsPerPort pin1.num = pyNormIdx mcu.pinsPerPort pin2.num)
    (hlast : ∀ nm s pin', (nm, s) ∈ l₃ → parsePinData mcu nm s d = .ok pin' →
      ¬(pin'.port = pin2.port ∧
        pyNormIdx mcu.pinsPerPort pin'.num = pyNormIdx mcu.pinsPerPort pin2.num))
    (hok : buildPins mcu defaultStr (l₁ ++ (nm₁, s₁) :: l₂ ++ (nm₂, s₂) :: l₃) = .ok st) :
    tableGetNat st.pins pin2.port (pyNormIdx mcu.pinsPerPort pin2.num).toNat =
      some pin2 := by
  unfold buildPins at hok
  rw [hd] at hok
  have hok2 : (do
      let tbl0 ← makeInitialTable mcu d
      foldE (applyDecl mcu d) ⟨tbl0, []⟩
        (l₁ ++ (nm₁, s₁) :: l₂ ++ (nm₂, s₂) :: l₃)) = .ok st := hok
  cases hmit : makeInitialTable mcu d with
  | error e => rw [hmit] at hok2; exact Except.noConfusion hok2
  | ok tbl0 =>
      rw [hmit] at hok2
      have hfold : foldE (applyDecl mcu d) ⟨tbl0, []⟩
          (l₁ ++ (nm₁, s₁) :: l₂ ++ (nm₂, s₂) :: l₃) = .ok st := hok2
      rw [show l₁ ++ (nm₁, s₁) :: l₂ ++ (nm₂, s₂) :: l₃ =
          (l₁ ++ (nm₁, s₁) :: l₂) ++ ((nm₂, s₂) :: l₃) from by simp] at hfold
      obtain ⟨sA, hfoldA, hfoldB⟩ := foldE_append_ok _ _ _ _ _ hfold
      have hshape0 := (makeInitialTable_ok hmit).1
      have hshapeA : TableShape mcu sA.pins := by
        refine foldE_inv (applyDecl mcu d) (fun s => TableShape mcu s.pins) _ _ _
          ?_ hshape0 hfoldA
        intro s₀ a s₁ _ hP hstep
        obtain ⟨pin, _, hts, _⟩ := applyDecl_ok hstep
        exact tableShape_tableSet hP hts
      simp only [foldE] at hfoldB
      cases happ : applyDecl mcu d sA (nm₂, s₂) with
      | error e => rw [happ] at hfoldB; exact Except.noConfusion hfoldB
      | ok sB =>
          rw [happ] at hfoldB
          obtain ⟨pin2x, hparse2, hts2, _⟩ := applyDecl_ok happ
          rw [h2] at hparse2
          injection hparse2 with hpe
          subst hpe
          obtain ⟨row, hfindA, hnnrow, hgetB⟩ := tableSet_getNat_same hts2
          have hrowlen : row.length = mcu.pinsPerPort :=
            hshapeA.2 (pin2.port, row) (tableFind_some_mem hfindA)
          rw [hrowlen] at hgetB hnnrow
          have hshapeB : TableShape mcu sB.pins := tableShape_tableSet hshapeA hts2
          have hfin := foldE_inv (applyDecl mcu d)
            (fun s => TableShape mcu s.pins ∧
              tableGetNat s.pins pin2.port
                (pyNormIdx mcu.pinsPerPort pin2.num).toNat = some pin2) l₃ sB st
            (by
              intro s₀ a s₁ ha hP hstep
              obtain ⟨pin', hparse', hts', _⟩ := applyDecl_ok hstep
              refine ⟨tableShape_tableSet hP.1 hts', ?_⟩
              rw [← hP.2]
              apply tableSet_getNat_preserve hts'
              have hnt := hlast a.1 a.2 pin' ha hparse'
              by_cases hport : pin'.port = pin2.port
              · right
                intro rowq hfindq hj
                apply hnt
                refine ⟨hport, ?_⟩
                have hlenq : rowq.length = mcu.pinsPerPort :=
                  hP.1.2 (pin'.port, rowq) (tableFind_some_mem hfindq)
                rw [hlenq] at hj
                rw [← hj]
                omega
              · left
                exact hport)
            ⟨hshapeB, hgetB⟩ hfoldB
          exact hfin.2

/-- Witness for C6 at a concrete build: `led1` and `led2` both target
`PB5`; the final record at position (B, 5) is exactly the parse of
`led2` over the default. -/
theorem c6_last_declaration_wins_witness :
    tableGetNat ((buildPins ⟨['B'], 6⟩
        ("OUTPUT, STARTLOW, PUSHPULL, HIGHSPEED, FLOATING".toList)
        [(("led1".toList), ("PB5, STARTHIGH".toList)),
          (("led2".toList), ("PB5, AF3".toList))]).toOption.getD ⟨[], []⟩).pins
      'B' 5 =
      some ⟨("LED2".toList), 'B', 5, ("ALTERNATE".toList), ("LOW".toList),
        ("PUSHPULL".toList), ("HIGH".toList), ("FLOATING".toList), 3,
        ("af3".toList)⟩ :=
  c6_last_declaration_wins ⟨['B'], 6⟩
    ("OUTPUT, STARTLOW, PUSHPULL, HIGHSPEED, FLOATING".toList)
    [] ("led1".toList) ("PB5, STARTHIGH".toList) []
    ("led2".toList) ("PB5, AF3".toList) []
    { mode := some ("OUTPUT".toList), od := some ("LOW".toList),
      otype := some ("PUSHPULL".toList), ospeed := some ("HIGH".toList),
      pupd := some ("FLOATING".toList), af := some 0 }
    [("OUTPUT".toList), ("STARTLOW".toList), ("PUSHPULL".toList),
      ("HIGHSPEED".toList), ("FLOATING".toList)]
    ⟨("LED1".toList), 'B', 5, ("OUTPUT".toList), ("HIGH".toList),
      ("PUSHPULL".toList), ("HIGH".toList), ("FLOATING".toList), 0,
      ("starthigh".toList)⟩
    ⟨("LED2".toList), 'B', 5, ("ALTERNATE".toList), ("LOW".toList),
      ("PUSHPULL".toList), ("HIGH".toList), ("FLOATING".toList), 3,
      ("af3".toList)⟩
    ((buildPins ⟨['B'], 6⟩
        ("OUTPUT, STARTLOW, PUSHPULL, HIGHSPEED, FLOATING".toList)
        [(("led1".toList), ("PB5, STARTHIGH".toList)),
          (("led2".toList), ("PB5, AF3".toList))]).toOption.getD ⟨[], []⟩)
    (by rfl) (by rfl) (by rfl) (by exact ⟨rfl, rfl⟩)
    (fun nm s pin' h _ => absurd h (List.not_mem_nil _)) (by rfl)

/-- Python string `<=` (lexicographic by code point), the order used by
`sorted(pins.iter_names())`. -/
def strLe : Str → Str → Bool
  | [], _ => true
  | _ :: _, [] => false
  | a :: as, b :: bs => if a = b then strLe as bs else decide (a < b)

/-- `pins.iter_names()`: the keys of `_pins_by_name`. -/
def iterNames (st : Pins) : List Str := st.pinsByName.map Prod.fst

/-- The logical-line macros emitted by `write_io_lines`: one
`#define LINE_<name>  PAL_LINE(GPIO<port>, <num>U)` per name of
`_pins_by_name`, in sorted name order, each looking the pin up by
name. -/
def lineMacros (st : Pins) : List (Str × Char × Int) :=
  (pySorted strLe (iterNames st)).filterMap
    (fun n => (byNameGet st.pinsByName n).map (fun pin => (pin.name, pin.port, pin.num)))

theorem mem_insStable (le : α → α → Bool) (x : α) :
    ∀ (l : List α) (a : α), a ∈ insStable le x l ↔ a = x ∨ a ∈ l := by
  intro l
  induction l with
  | nil => intro a; simp [insStable]
  | cons b bs ih =>
      intro a
      simp only [insStable]
      by_cases hb : le b x = true
      · rw [if_pos hb]
        simp only [List.mem_cons, ih a]
        tauto
      · rw [if_neg hb]
        simp only [List.mem_cons]

theorem mem_pySorted (le : α → α → Bool) (xs : List α) (a : α) :
    a ∈ pySorted le xs ↔ a ∈ xs := by
  have hgen : ∀ (ys : List α) (acc : List α),
      (a ∈ ys.foldl (fun acc b => insStable le b acc) acc ↔ a ∈ acc ∨ a ∈ ys) := by
    intro ys
    induction ys with
    | nil => intro acc; simp
    | cons y ys ih =>
        intro acc
        simp only [List.foldl_cons]
        rw [ih, mem_insStable]
        simp only [List.mem_cons]
        tauto
  unfold pySorted
  rw [hgen xs []]
  simp

theorem insStable_pairwise {le : α → α → Bool}
    (htot : ∀ a b, le a b = true ∨ le b a = true)
    (htr : ∀ a b c, le a b = true → le b c = true → le a c = true)
    (x : α) :
    ∀ {l : List α}, l.Pairwise (fun a b => le a b = true) →
      (insStable le x l).Pairwise (fun a b => le a b = true) := by
  intro l
  induction l with
  | nil => intro _; simp [insStable]
  | cons b bs ih =>
      intro hl
      obtain ⟨hb, hbs⟩ := List.pairwise_cons.mp hl
      simp only [insStable]
      by_cases hble : le b x = true
      · rw [if_pos hble]
        refine List.pairwise_cons.mpr ⟨?_, ih hbs⟩
        intro y hy
        rcases (mem_insStable le x bs y).mp hy with rfl | hy
        · exact hble
        · exact hb y hy
      · rw [if_neg hble]
        have hxb : le x b = true := by
          rcases htot x b with h | h
          · exact h
          · exact absurd h hble
        refine List.pairwise_cons.mpr ⟨?_, hl⟩
        intro y hy
        rcases List.mem_cons.mp hy with rfl | hy
        · exact hxb
        · exact htr x b y hxb (hb y hy)

theorem pySorted_pairwise {le : α → α → Bool}
    (htot : ∀ a b, le a b = true ∨ le b a = true)
    (htr : ∀ a b c, le a b = true → le b c = true → le a c = true)
    (xs : List α) :
    (pySorted le xs).Pairwise (fun a b => le a b = true) := by
  have hgen : ∀ (ys acc : List α),
      acc.Pairwise (fun a b => le a b = true) →
      (ys.foldl (fun acc b => insStable le b acc) acc).Pairwise
        (fun a b => le a b = true) := by
    intro ys
    induction ys with
    | nil => intro acc h; exact h
    | cons y ys ih =>
        intro acc h
        simp only [List.foldl_cons]
        exact ih _ (insStable_pairwise htot htr y h)
  exact hgen xs [] List.Pairwise.nil

theorem strLe_total : ∀ s t : Str, strLe s t = true ∨ strLe t s = true := by
  intro s
  induction s with
  | nil => intro t; left; rfl
  | cons a as ih =>
      intro t
      cases t with
      | nil => right; rfl
      | cons b bs =>
          by_cases hab : a = b
          · subst hab
            simp only [strLe, if_pos rfl]
            exact ih bs
          · have hba : ¬(b = a) := fun h => hab h.symm
            simp only [strLe, if_neg hab, if_neg hba]
            rcases lt_or_gt_of_ne hab with h | h
            · left; exact decide_eq_true h
            · right; exact decide_eq_true h

theorem strLe_trans : ∀ s t u : Str,
    strLe s t = true → strLe t u = true → strLe s u = true := by
  intro s
  induction s with
  | nil => intro t u _ _; rfl
  | cons a as ih =>
      intro t u h1 h2
      cases t with
      | nil => exact absurd h1 (by simp [strLe])
      | cons b bs =>
          cases u with
          | nil => exact absurd h2 (by simp [strLe])
          | cons c cs =>
              by_cases hab : a = b
              · subst hab
                simp only [strLe, if_pos rfl] at h1
                by_cases hac : a = c
                · subst hac
                  simp only [strLe, if_pos rfl] at h2 ⊢
                  exact ih bs cs h1 h2
                · simp only [strLe, if_neg hac] at h2 ⊢
                  exact h2
              · simp only [strLe, if_neg hab] at h1
                have hlt1 : a < b := of_decide_eq_true h1
                by_cases hbc : b = c
                · subst hbc
                  simp only [strLe, if_neg hab]
                  exact decide_eq_true hlt1
                · simp only [strLe, if_neg hbc] at h2
                  have hlt2 : b < c := of_decide_eq_true h2
                  have hlt : a < c := lt_trans hlt1 hlt2
                  have hac : ¬(a = c) := ne_of_lt hlt
                  simp only [strLe, if_neg hac]
                  exact decide_eq_true hlt

theorem pairwise_filterMap {α β : Type} {g : α → Option β} {R : α → α → Prop}
    {S : β → β → Prop}
    (hg : ∀ a b x y, R a b → g a = some x → g b = some y → S x y) :
    ∀ {l : List α}, l.Pairwise R → (l.filterMap g).Pairwise S := by
  intro l
  induction l with
  | nil => intro _; simp
  | cons a l ih =>
      intro hl
      obtain ⟨ha, hl2⟩ := List.pairwise_cons.mp hl
      cases hga : g a with
      | none => rw [List.filterMap_cons_none hga]; exact ih hl2
      | some x =>
          rw [List.filterMap_cons_some hga]
          refine List.pairwise_cons.mpr ⟨?_, ih hl2⟩
          intro y hy
          obtain ⟨b, hbmem, hgb⟩ := List.mem_filterMap.mp hy
          exact hg a b x y (ha b hbmem) hga hgb

theorem byNameGet_insert_same (m : List (Str × Pin)) (k : Str) (v : Pin) :
    byNameGet (byNameInsert m k v) k = some v := by
  induction m with
  | nil => simp [byNameInsert, byNameGet]
  | cons pr rest ih =>
      obtain ⟨k0, v0⟩ := pr
      by_cases hk : k0 = k
      · simp [byNameInsert, byNameGet, hk]
      · simp [byNameInsert, byNameGet, hk, ih]

theorem byNameGet_insert_other (m : List (Str × Pin)) (k k2 : Str) (v : Pin)
    (hne : k ≠ k2) : byNameGet (byNameInsert m k v) k2 = byNameGet m k2 := by
  induction m with
  | nil => simp [byNameInsert, byNameGet, hne]
  | cons pr rest ih =>
      obtain ⟨k0, v0⟩ := pr
      by_cases hk : k0 = k
      · subst hk
        have hne2 : ¬(k0 = k2) := hne
        simp only [byNameInsert, if_pos rfl, byNameGet, if_neg hne2]
      · simp only [byNameInsert, if_neg hk]
        by_cases hk2 : k0 = k2
        · simp only [byNameGet, if_pos hk2]
        · simp only [byNameGet, if_neg hk2]
          exact ih

theorem byNameGet_some_mem {m : List (Str × Pin)} {k : Str} {v : Pin}
    (h : byNameGet m k = some v) : k ∈ m.map Prod.fst := by
  induction m with
  | nil => exact Option.noConfusion h
  | cons pr rest ih =>
      obtain ⟨k0, v0⟩ := pr
      by_cases hk : k0 = k
      · subst hk
        exact List.mem_cons_self _ _
      · simp only [byNameGet, if_neg hk] at h
        exact List.mem_cons_of_mem _ (ih h)

theorem mkPin_ok_name {name : Str} {d : PinDict} {raw : Str} {pin : Pin}
    (h : mkPin name d raw = .ok pin) : pin.name = name := by
  unfold mkPin at h
  split at h
  · exact Except.noConfusion h
  · split at h
    · exact Except.noConfusion h
    · split at h
      · injection h with h'
        rw [← h']
      · exact Except.noConfusion h

theorem parsePinData_ok_name {mcu : Mcu} {nm s : Str} {d : PinDict} {pin : Pin}
    (h : parsePinData mcu nm s d = .ok pin) : pin.name = pyUpper nm := by
  unfold parsePinData at h
  cases hp : parseDataStr mcu s false with
  | error e => rw [hp] at h; exact Except.noConfusion h
  | ok pr =>
      rw [hp] at h
      obtain ⟨data, raw⟩ := pr
      have h2 : mkPin (pyUpper nm) (dictMerge d data)
          (pyLower (List.intercalate [',', ' '] raw)) = .ok pin := h
      exact mkPin_ok_name h2

/-- The by-name dictionary maps each key to a pin carrying that key as
its name. -/
def NameKeyInv (m : List (Str × Pin)) : Prop := ∀ pr ∈ m, pr.2.name = pr.1

theorem nameKeyInv_insert {m : List (Str × Pin)} (h : NameKeyInv m) (pin : Pin) :
    NameKeyInv (byNameInsert m pin.name pin) := by
  induction m with
  | nil =>
      intro pr hpr
      simp only [byNameInsert] at hpr
      rcases List.mem_cons.mp hpr with rfl | hc
      · rfl
      · exact absurd hc (List.not_mem_nil _)
  | cons pr0 rest ih =>
      obtain ⟨k0, v0⟩ := pr0
      intro pr hpr
      by_cases hk : k0 = pin.name
      · simp only [byNameInsert, if_pos hk] at hpr
        rcases List.mem_cons.mp hpr with rfl | hc
        · exact hk.symm
        · exact h pr (List.mem_cons_of_mem _ hc)
      · simp only [byNameInsert, if_neg hk] at hpr
        rcases List.mem_cons.mp hpr with rfl | hc
        · exact h (k0, v0) (List.mem_cons_self _ _)
        · exact ih (fun q hq => h q (List.mem_cons_of_mem _ hq)) pr hc

theorem byNameGet_name {m : List (Str × Pin)} (hinv : NameKeyInv m) {k : Str}
    {v : Pin} (h : byNameGet m k = some v) : v.name = k := by
  induction m with
  | nil => exact Option.noConfusion h
  | cons pr rest ih =>
      obtain ⟨k0, v0⟩ := pr
      by_cases hk : k0 = k
      · subst hk
        simp only [byNameGet, if_pos rfl] at h
        injection h with h'
        rw [← h']
        exact hinv (k0, v0) (List.mem_cons_self _ _)
      · simp only [byNameGet, if_neg hk] at h
        exact ih (fun q hq => hinv q (List.mem_cons_of_mem _ hq)) h

/-- C10: every user-declared pin name yields a logical-line macro in
the emitted output, carrying the port and index parsed from that pin's
own declaration; this holds for any suffix `l₂` of later declarations
that do not reuse the (uppercased) name — in particular when a later
declaration targets the same (port, index) and replaces the pin in the
table (see C6), the stale by-name entry still emits its `LINE_` macro.
The emitted macro list is in sorted name order (pairwise `strLe` on the
names). -/
theorem c10_line_macro_survives (mcu : Mcu) (defaultStr : Str)
    (l₁ : List (Str × Str)) (nm₁ s₁ : Str) (l₂ : List (Str × Str))
    (d : PinDict) (raw0 : List Str) (pin1 : Pin) (st : Pins)
    (hd : parseDataStr mcu defaultStr true = .ok (d, raw0))
    (h1 : parsePinData mcu nm₁ s₁ d = .ok pin1)
    (hnames : ∀ p ∈ l₂, pyUpper p.1 ≠ pin1.name)
    (hok : buildPins mcu defaultStr (l₁ ++ (nm₁, s₁) :: l₂) = .ok st) :
    (pin1.name, pin1.port, pin1.num) ∈ lineMacros st ∧
      ((lineMacros st).map (fun e => e.1)).Pairwise
        (fun a b => strLe a b = true) := by
  unfold buildPins at hok
  rw [hd] at hok
  have hok2 : (do
      let tbl0 ← makeInitialTable mcu d
      foldE (applyDecl mcu d) ⟨tbl0, []⟩ (l₁ ++ (nm₁, s₁) :: l₂)) = .ok st := hok
  cases hmit : makeInitialTable mcu d with
  | error e => rw [hmit] at hok2; exact Except.noConfusion hok2
  | ok tbl0 =>
      rw [hmit] at hok2
      have hfold : foldE (applyDecl mcu d) ⟨tbl0, []⟩ (l₁ ++ (nm₁, s₁) :: l₂) =
          .ok st := hok2
      obtain ⟨sA, _, hfoldB⟩ := foldE_append_ok _ _ _ _ _ hfold
      simp only [foldE] at hfoldB
      cases happ : applyDecl mcu d sA (nm₁, s₁) with
      | error e => rw [happ] at hfoldB; exact Except.noConfusion hfoldB
      | ok sB =>
          rw [happ] at hfoldB
          obtain ⟨pin1x, hparse1, _, hbn⟩ := applyDecl_ok happ
          rw [h1] at hparse1
          injection hparse1 with hpe
          subst hpe
          have hgetB : byNameGet sB.pinsByName pin1.name = some pin1 := by
            rw [hbn]
            exact byNameGet_insert_same _ _ _
          have hget : byNameGet st.pinsByName pin1.name = some pin1 := by
            refine foldE_inv (applyDecl mcu d)
              (fun s => byNameGet s.pinsByName pin1.name = some pin1) l₂ sB st
              ?_ hgetB hfoldB
            intro s₀ a s₁ ha hP hstep
            obtain ⟨pin', hparse', _, hbn'⟩ := applyDecl_ok hstep
            rw [hbn', byNameGet_insert_other]
            · exact hP
            · rw [parsePinData_ok_name hparse']
              exact hnames a ha
          constructor
          · apply List.mem_filterMap.mpr
            refine ⟨pin1.name, ?_, ?_⟩
            · rw [mem_pySorted]
              exact byNameGet_some_mem hget
            · rw [hget]
              rfl
          · have hinv : NameKeyInv st.pinsByName := by
              refine foldE_inv (applyDecl mcu d)
                (fun s => NameKeyInv s.pinsByName) _ ⟨tbl0, []⟩ st
                ?_ (fun pr hpr => absurd hpr (List.not_mem_nil pr)) hfold
              intro s₀ a s₁ _ hP hstep
              obtain ⟨pin', _, _, hbn'⟩ := applyDecl_ok hstep
              rw [hbn']
              exact nameKeyInv_insert hP pin'
            have hsorted := pySorted_pairwise strLe_total strLe_trans
              (iterNames st)
            have hpair := pairwise_filterMap
              (g := fun n => (byNameGet st.pinsByName n).map
                (fun pin => (pin.name, pin.port, pin.num)))
              (R := fun a b => strLe a b = true)
              (S := fun x y => strLe x.1 y.1 = true)
              (by
                intro a b x y hab hga hgb
                have hga2 : (byNameGet st.pinsByName a).map
                    (fun pin => (pin.name, pin.port, pin.num)) = some x := hga
                have hgb2 : (byNameGet st.pinsByName b).map
                    (fun pin => (pin.name, pin.port, pin.num)) = some y := hgb
                cases hla : byNameGet st.pinsByName a with
                | none => rw [hla] at hga2; exact Option.noConfusion hga2
                | some pa =>
                    cases hlb : byNameGet st.pinsByName b with
                    | none => rw [hlb] at hgb2; exact Option.noConfusion hgb2
                    | some pb =>
                        rw [hla] at hga2
                        rw [hlb] at hgb2
                        injection hga2 with hga3
                        injection hgb2 with hgb3
                        rw [← hga3, ← hgb3]
                        show strLe pa.name pb.name = true
                        rw [byNameGet_name hinv hla, byNameGet_name hinv hlb]
                        exact hab)
              hsorted
            have hmap : ((lineMacros st).map (fun e => e.1)).Pairwise
                (fun a b => strLe a b = true) := by
              apply (List.pairwise_map).mpr
              exact hpair
            exact hmap

/-- Witness for C10 at a concrete build: `led2` replaces `led1` at
position (B, 5), yet `LINE_LED1` is still emitted with port `B`,
index 5, and the emitted names are in sorted order. -/
theorem c10_line_macro_survives_witness :
    (("LED1".toList), 'B', (5 : Int)) ∈ lineMacros
        ((buildPins ⟨['B'], 6⟩
          ("OUTPUT, STARTLOW, PUSHPULL, HIGHSPEED, FLOATING".toList)
          [(("led1".toList), ("PB5, STARTHIGH".toList)),
            (("led2".toList), ("PB5, AF3".toList))]).toOption.getD ⟨[], []⟩) ∧
      ((lineMacros ((buildPins ⟨['B'], 6⟩
          ("OUTPUT, STARTLOW, PUSHPULL, HIGHSPEED, FLOATING".toList)
          [(("led1".toList), ("PB5, STARTHIGH".toList)),
            (("led2".toList), ("PB5, AF3".toList))]).toOption.getD ⟨[], []⟩)).map
        (fun e => e.1)).Pairwise (fun a b => strLe a b = true) :=
  c10_line_macro_survives ⟨['B'], 6⟩
    ("OUTPUT, STARTLOW, PUSHPULL, HIGHSPEED, FLOATING".toList)
    [] ("led1".toList) ("PB5, STARTHIGH".toList)
    [(("led2".toList), ("PB5, AF3".toList))]
    { mode := some ("OUTPUT".toList), od := some ("LOW".toList),
      otype := some ("PUSHPULL".toList), ospeed := some ("HIGH".toList),
      pupd := some ("FLOATING".toList), af := some 0 }
    [("OUTPUT".toList), ("STARTLOW".toList), ("PUSHPULL".toList),
      ("HIGHSPEED".toList), ("FLOATING".toList)]
    ⟨("LED1".toList), 'B', 5, ("OUTPUT".toList), ("HIGH".toList),
      ("PUSHPULL".toList), ("HIGH".toList), ("FLOATING".toList), 0,
      ("starthigh".toList)⟩
    ((buildPins ⟨['B'], 6⟩
        ("OUTPUT, STARTLOW, PUSHPULL, HIGHSPEED, FLOATING".toList)
        [(("led1".toList), ("PB5, STARTHIGH".toList)),
          (("led2".toList), ("PB5, AF3".toList))]).toOption.getD ⟨[], []⟩)
    (by rfl) (by rfl) (by decide) (by rfl)

end GenBoard
